import Mathlib

/-!
Verification development for the pyopenvr binding-generator model
(`src/translate/model.py`).

Python strings are modelled as `List Char` (`Str`).  The regular-expression
operations of the source are specialised, pattern by pattern, to executable
Lean functions that reproduce CPython's leftmost, greedy, backtracking match
semantics for exactly the patterns appearing in the source (ASCII character
classes; the source only ever receives ASCII type spellings).
`translate_type` is defined with explicit fuel (`ttCore`); termination is
proved separately by exhibiting a concrete sufficient fuel bound (`mw s + 1`).
-/

abbrev Str := List Char

def str (s : String) : Str := s.data

/-- ASCII model of the regex class `\w` (word character). -/
def isWord (c : Char) : Bool := c.isAlpha || c.isDigit || c = '_'

/-- ASCII model of the regex class `\s` (Python whitespace). -/
def isWs (c : Char) : Bool :=
  c = ' ' || c = '\t' || c = '\n' || c = '\r' || c = '\x0b' || c = '\x0c'

/-- Word-boundary test `\b` at the start of a match whose first character is a
word character: holds at string start or after a non-word character. -/
def bdryB (prev : Option Char) : Bool :=
  match prev with
  | none => true
  | some c => !isWord c

/-- Generic engine for `re.sub(pattern, repl, s)`: scan left to right over the
input, at each position ask the matcher `m` (which receives the previous
original character, for `\b`) for a match; on a match of `k+1` consumed
characters emit the replacement and resume after the consumed text, otherwise
emit the character unchanged.  Matches are found on the original text,
mirroring CPython. -/
def subGF (m : Option Char → Str → Option (Nat × Str)) :
    Nat → Option Char → Str → Str
  | 0, _, s => s
  | _ + 1, _, [] => []
  | fuel + 1, prev, c :: rest =>
    match m prev (c :: rest) with
    | some (k, repl) =>
        repl ++ subGF m fuel (some ((c :: rest).getD k c)) (rest.drop k)
    | none => c :: subGF m fuel (some c) rest

def subG (m : Option Char → Str → Option (Nat × Str)) (prev : Option Char)
    (s : Str) : Str :=
  subGF m s.length prev s

/-- Matcher for `\bconst\s+` (replacement is empty). -/
def mConst1 (prev : Option Char) (s : Str) : Option (Nat × Str) :=
  if bdryB prev then
    if (str "const").isPrefixOf s then
      let w := (s.drop 5).takeWhile isWs
      if w.length = 0 then none else some (4 + w.length, [])
    else none
  else none

/-- Matcher for `\s+const\b` (replacement is empty). -/
def mConst2 (_prev : Option Char) (s : Str) : Option (Nat × Str) :=
  let w := s.takeWhile isWs
  if w.length = 0 then none
  else
    let t := s.drop w.length
    if (str "const").isPrefixOf t then
      match (t.drop 5).head? with
      | none => some (w.length + 4, [])
      | some c => if isWord c then none else some (w.length + 4, [])
    else none

/-- Matcher for `\bstruct\s+` / `\benum\s+` / `\bunion\s+` (keyword noise),
parameterised by the keyword. -/
def mKw (kw : Str) (prev : Option Char) (s : Str) : Option (Nat × Str) :=
  if bdryB prev then
    if kw.isPrefixOf s then
      let w := (s.drop kw.length).takeWhile isWs
      if w.length = 0 then none else some (kw.length - 1 + w.length, [])
    else none
  else none

/-- Matcher for the width collapses `8_t\b` → `8` etc. (no left boundary). -/
def mWidth (digits : Str) (_prev : Option Char) (s : Str) : Option (Nat × Str) :=
  if (digits ++ str "_t").isPrefixOf s then
    match (s.drop (digits.length + 2)).head? with
    | none => some (digits.length + 1, digits)
    | some c => if isWord c then none else some (digits.length + 1, digits)
  else none

/-- Matcher for `\bunsigned\s+` → `u`. -/
def mUnsigned (prev : Option Char) (s : Str) : Option (Nat × Str) :=
  if bdryB prev then
    if (str "unsigned").isPrefixOf s then
      let w := (s.drop 8).takeWhile isWs
      if w.length = 0 then none else some (7 + w.length, str "u")
    else none
  else none

/-- Matcher for `\blong\s+long\b` → `longlong`. -/
def mLongLong (prev : Option Char) (s : Str) : Option (Nat × Str) :=
  if bdryB prev then
    if (str "long").isPrefixOf s then
      let w := (s.drop 4).takeWhile isWs
      if w.length = 0 then none
      else
        let t := s.drop (4 + w.length)
        if (str "long").isPrefixOf t then
          match (t.drop 4).head? with
          | none => some (7 + w.length, str "longlong")
          | some c => if isWord c then none else some (7 + w.length, str "longlong")
        else none
    else none
  else none

/-- Matcher for `\bVR_` (replacement is empty). -/
def mVR (prev : Option Char) (s : Str) : Option (Nat × Str) :=
  if bdryB prev then
    if (str "VR_").isPrefixOf s then some (2, []) else none
  else none

/-- Matcher for `\bbool\b` → `openvr_bool`. -/
def mBool (prev : Option Char) (s : Str) : Option (Nat × Str) :=
  if bdryB prev then
    if (str "bool").isPrefixOf s then
      match (s.drop 4).head? with
      | none => some (3, str "openvr_bool")
      | some c => if isWord c then none else some (3, str "openvr_bool")
    else none
  else none

/-- Full-string test for `^\s*(?:const\s+)?char\s*\*\s*$`. -/
def charStarTail (t : Str) : Bool :=
  if (str "char").isPrefixOf t then
    match (t.drop 4).dropWhile isWs with
    | [] => false
    | c :: rest => c = '*' && rest.all isWs
  else false

def charStarTest (s : Str) : Bool :=
  let t := s.dropWhile isWs
  (if (str "const").isPrefixOf t then
     let w := (t.drop 5).takeWhile isWs
     if w.length = 0 then false else charStarTail (t.drop (5 + w.length))
   else false)
  || charStarTail t

/-- Prefix test for `^(float|u?int|double|u?char|u?short|u?long)`. -/
def cPrefixTest (s : Str) : Bool :=
  [str "float", str "uint", str "int", str "double", str "uchar",
   str "char", str "ushort", str "short", str "ulong", str "long"].any
    (fun p => p.isPrefixOf s)

/-- Model of `(.*)$` applied to the text after the fixed part of a pattern:
succeeds when the rest has no newline (group = rest) or exactly one final
newline (group = rest without it). -/
def restMatch (rest : Str) : Option Str :=
  let a := rest.takeWhile (fun c => c ≠ '\n')
  let b := rest.drop a.length
  if b = [] then some a else if b = ['\n'] then some a else none

/-- One candidate split for `^([^\*]+\S)\s*[\*&](.*)$` with `k` the length of
the `[^\*]+` part (the caller guarantees `s.take k` is star-free): `\S` is
`s[k]`, then a maximal whitespace run, then `*` or `&`, then `(.*)$`. -/
def starCheckAt (s : Str) (k : Nat) : Option (Str × Str) :=
  match s.drop k with
  | [] => none
  | c :: rest =>
    if isWs c then none
    else
      let w := rest.takeWhile isWs
      match rest.drop w.length with
      | [] => none
      | d :: rest2 =>
        if d = '*' || d = '&' then
          match restMatch rest2 with
          | some g2 => some (s.take (k + 1), g2)
          | none => none
        else none

/-- Countdown over the candidate lengths of the greedy `[^\*]+` group, longest
first — reproducing the backtracking order of the Python engine. -/
def starFind (s : Str) : Nat → Option (Str × Str)
  | 0 => none
  | k + 1 =>
    match starCheckAt s (k + 1) with
    | some r => some r
    | none => starFind s k

/-- Model of `re.match(r'^([^\*]+\S)\s*[\*&](.*)$', s)`. -/
def matchStar (s : Str) : Option (Str × Str) :=
  starFind s (min (s.takeWhile (fun c => c ≠ '*')).length (s.length - 1))

/-- One candidate split for `^([^\*]+)ptr(?:_t)?(.*)$` with `k` the length of
group 1; the optional `_t` is tried greedily, with fallback. -/
def ptrCheckAt (s : Str) (k : Nat) : Option (Str × Str) :=
  let t := s.drop k
  if (str "ptr").isPrefixOf t then
    let rest := t.drop 3
    if (str "_t").isPrefixOf rest then
      match restMatch (rest.drop 2) with
      | some g2 => some (s.take k, g2)
      | none =>
        match restMatch rest with
        | some g2 => some (s.take k, g2)
        | none => none
    else
      match restMatch rest with
      | some g2 => some (s.take k, g2)
      | none => none
  else none

def ptrFind (s : Str) : Nat → Option (Str × Str)
  | 0 => none
  | k + 1 =>
    match ptrCheckAt s (k + 1) with
    | some r => some r
    | none => ptrFind s k

/-- Model of `re.match(r'^([^\*]+)ptr(?:_t)?(.*)$', s)`. -/
def matchPtr (s : Str) : Option (Str × Str) :=
  ptrFind s (min (s.takeWhile (fun c => c ≠ '*')).length s.length)

/-- One candidate split for `^([^\[]+\S)\s*\[(\d+)\](.*)$` with `k` the length
of the `[^\[]+` part. -/
def arrCheckAt (s : Str) (k : Nat) : Option (Str × Str × Str) :=
  match s.drop k with
  | [] => none
  | c :: rest =>
    if isWs c then none
    else
      let w := rest.takeWhile isWs
      match rest.drop w.length with
      | [] => none
      | d :: rest2 =>
        if d = '[' then
          let ds := rest2.takeWhile Char.isDigit
          if ds.length = 0 then none
          else
            match rest2.drop ds.length with
            | [] => none
            | e :: rest3 =>
              if e = ']' then
                match restMatch rest3 with
                | some g3 => some (s.take (k + 1), ds, g3)
                | none => none
              else none
        else none

def arrFind (s : Str) : Nat → Option (Str × Str × Str)
  | 0 => none
  | k + 1 =>
    match arrCheckAt s (k + 1) with
    | some r => some r
    | none => arrFind s k

/-- Model of `re.match(r'^([^\[]+\S)\s*\[(\d+)\](.*)$', s)`. -/
def matchArr (s : Str) : Option (Str × Str × Str) :=
  arrFind s (min (s.takeWhile (fun c => c ≠ '[')).length (s.length - 1))

/-- Python `str.strip()` (whitespace at both ends). -/
def pstrip (s : Str) : Str :=
  ((s.dropWhile isWs).reverse.dropWhile isWs).reverse

/-- The preprocessing pipeline of `translate_type` up to (and excluding) the
pointer-resolution loop, in source order. -/
def preprocess (s : Str) : Str :=
  let r := pstrip s
  let r := subG mConst1 none r
  let r := subG mConst2 none r
  let r := subG (mKw (str "struct")) none r
  let r := subG (mKw (str "enum")) none r
  let r := subG (mKw (str "union")) none r
  let r := if r = str "unsigned" then str "unsigned int" else r
  let r := subG (mWidth (str "8")) none r
  let r := subG (mWidth (str "16")) none r
  let r := subG (mWidth (str "32")) none r
  let r := subG (mWidth (str "64")) none r
  let r := subG mUnsigned none r
  let r := if charStarTest r then str "c_char_p" else r
  let r := subG mLongLong none r
  let r := if cPrefixTest r then 'c' :: '_' :: r else r
  let r := subG mVR none r
  r

/-- The postprocessing steps between the `ptr` loop and array resolution. -/
def postprocess (s : Str) : Str :=
  let r := if s = str "void" then str "None" else s
  let r := if r = str "POINTER(None)" then str "c_void_p" else r
  let r := subG mBool none r
  let r := if (str "vr::").isPrefixOf r then r.drop 4 else r
  r

/-- The rewrite applied by both fixpoint loops:
`POINTER(` ++ translated pointee ++ `)` ++ group 2. -/
def ptrWrap (p g2 : Str) : Str :=
  str "POINTER(" ++ p ++ ')' :: g2

/-- Generic model of the two `while m:` rewrite loops: while the matcher
matches, translate the pointee with `tt` and rewrite to
`POINTER(pointee)` ++ group 2.  `none` when the iteration fuel runs out
with a pending match (never happens for sufficient fuel). -/
def loopF (tt : Str → Option Str) (mtch : Str → Option (Str × Str)) :
    Nat → Str → Option Str
  | 0, s =>
    match mtch s with
    | none => some s
    | some _ => none
  | fuel + 1, s =>
    match mtch s with
    | none => some s
    | some (g1, g2) =>
      match tt g1 with
      | none => none
      | some p => loopF tt mtch fuel (ptrWrap p g2)

/-- Fuel-indexed model of `translate_type(type_name, bracket)`; `none` means
the fuel ran out (never happens for sufficient fuel, see `ttCore_isSome`).
The pointer loop, the `ptr` loop and the recursive array call all re-enter
the full translator through `ttCore fuel`. -/
def ttCore : Nat → Bool → Str → Option Str
  | 0, _, _ => none
  | fuel + 1, bracket, s0 =>
    let s1 := preprocess s0
    match loopF (ttCore fuel false) matchStar (fuel + 1) s1 with
    | none => none
    | some s2 =>
      match loopF (ttCore fuel false) matchPtr (fuel + 1) s2 with
      | none => none
      | some s3 =>
        let s4 := postprocess s3
        match matchArr s4 with
        | none => some s4
        | some (g1, ds, g3) =>
          match ttCore fuel true (g1 ++ g3) with
          | none => none
          | some t =>
            let r := t ++ ' ' :: '*' :: ' ' :: ds
            some (if bracket then '(' :: (r ++ [')']) else r)

/-- Count of occurrences of the letter triple `ptr` (at every position). -/
def countPtr : Str → Nat
  | 'p' :: 't' :: 'r' :: rest => 1 + countPtr ('t' :: 'r' :: rest)
  | _ :: rest => countPtr rest
  | [] => 0

/-- Termination measure for `translate_type`: brackets are worth 3 (consuming
one may create one `*` and one `ptr` occurrence), the other rewrite triggers
are worth 1. -/
def mw (s : Str) : Nat :=
  3 * s.count '[' + s.count '*' + s.count '&' + countPtr s

/-- Total model of `translate_type(type_name)` (default `bracket=False`),
with the sufficient fuel `mw s + 1`. -/
def translate_type (s : Str) : Str :=
  (ttCore (mw s + 1) false s).getD s

/-! ### Text-layout helpers (`textwrap.dedent`, `textwrap.indent`,
`inspect.cleandoc`), faithful to CPython for newline-terminated ASCII text. -/

/-- Python `str.split('\n')`. -/
def splitNl : Str → List Str
  | [] => [[]]
  | c :: rest =>
    if c = '\n' then [] :: splitNl rest
    else
      match splitNl rest with
      | h :: t => (c :: h) :: t
      | [] => [[c]]

/-- Python `'\n'.join(lines)`. -/
def joinNl : List Str → Str
  | [] => []
  | [l] => l
  | l :: ls => l ++ '\n' :: joinNl ls

/-- Python `str.splitlines(True)` for text whose only line terminator is
`'\n'` (the only terminator occurring in this model). -/
def splitLinesKeep : Str → List Str
  | [] => []
  | c :: rest =>
    if c = '\n' then [c] :: splitLinesKeep rest
    else
      match splitLinesKeep rest with
      | [] => [[c]]
      | h :: t => (c :: h) :: t

def isSpaceTab (c : Char) : Bool := c = ' ' || c = '\t'

/-- Longest common prefix of two strings. -/
def commonPrefix : Str → Str → Str
  | a :: as, b :: bs => if a = b then a :: commonPrefix as bs else []
  | _, _ => []

/-- `textwrap.dedent`: blank out whitespace-only lines, compute the common
leading space/tab margin of the remaining lines, strip it from every line
that carries it. -/
def dedent (s : Str) : Str :=
  let lines := (splitNl s).map (fun (l : Str) =>
    if !l.isEmpty && l.all isSpaceTab then [] else l)
  let ind := (lines.filter (fun l => !l.isEmpty)).map
    (fun l => l.takeWhile isSpaceTab)
  let margin := match ind with
    | [] => []
    | h :: t => t.foldl commonPrefix h
  if margin = [] then joinNl lines
  else joinNl (lines.map (fun l =>
    if margin.isPrefixOf l then l.drop margin.length else l))

/-- `textwrap.indent(text, pre)` with the default predicate (prefix every
line that contains a non-whitespace character). -/
def indentP (pre : Str) (s : Str) : Str :=
  ((splitLinesKeep s).map (fun l =>
    if l.any (fun c => !isWs c) then pre ++ l else l)).flatten

/-- Python `str.expandtabs()` (tab size 8, column reset at `\r`/`\n`). -/
def expandTabsGo : Nat → Str → Str
  | _, [] => []
  | col, c :: rest =>
    if c = '\t' then
      let n := 8 - col % 8
      List.replicate n ' ' ++ expandTabsGo (col + n) rest
    else if c = '\n' || c = '\r' then c :: expandTabsGo 0 rest
    else c :: expandTabsGo (col + 1) rest

def expandTabs (s : Str) : Str := expandTabsGo 0 s

/-- `inspect.cleandoc`: expand tabs, strip the common margin of the lines
after the first, strip the first line, drop blank lines at both ends. -/
def cleandoc (doc : Str) : Str :=
  let lines := splitNl (expandTabs doc)
  let margins := (lines.drop 1).filterMap (fun l =>
    let c := (l.dropWhile isWs).length
    if c = 0 then none else some (l.length - c))
  let lines := match lines with
    | [] => []
    | h :: t => h.dropWhile isWs :: t
  let lines := match margins with
    | [] => lines
    | mh :: mt =>
      let mrg := mt.foldl min mh
      match lines with
      | [] => []
      | h :: t => h :: t.map (fun (l : Str) => l.drop mrg)
  let lines := (lines.reverse.dropWhile (fun l => l.isEmpty)).reverse
  let lines := lines.dropWhile (fun l => l.isEmpty)
  joinNl lines

/-- Python `', '.join(xs)`. -/
def joinCommaSp : List Str → Str
  | [] => []
  | [l] => l
  | l :: ls => l ++ ',' :: ' ' :: joinCommaSp ls

/-- The single-quote character, used by the generated `return b''`. -/
def sqc : Char := Char.ofNat 39

/-! ### The declaration model: clang type handles, `Parameter`, `Method`,
`Function`. -/

/-- Model of `clang.cindex.TypeKind` restricted to the kinds the source
inspects (`POINTER`, `VOID`, everything else). -/
inductive TKind where
  | pointer : TKind
  | void : TKind
  | other : TKind
deriving DecidableEq, Repr

/-- Model of a clang type handle: kind tag, spelling, const-qualification,
and pointee (`invalid` models clang's invalid/absent type, whose spelling
is empty). -/
inductive PType where
  | invalid : PType
  | mk (kind : TKind) (spelling : Str) (constQ : Bool) (pointee : PType) : PType
deriving DecidableEq, Repr

def PType.kind : PType → TKind
  | .invalid => TKind.other
  | .mk k _ _ _ => k

def PType.spelling : PType → Str
  | .invalid => []
  | .mk _ s _ _ => s

def PType.is_const_qualified : PType → Bool
  | .invalid => false
  | .mk _ _ c _ => c

def PType.get_pointee : PType → PType
  | .invalid => .invalid
  | .mk _ _ _ p => p

/-- Model of `Parameter` (the `annotation` attribute is called `annot`
here).  `is_count` is the retroactively-set flag. -/
structure Parameter where
  name : Str
  type : PType
  default_value : Option Str
  annot : Option Str
  is_count : Bool
deriving DecidableEq, Repr

/-- `Parameter.__init__`: a parameter named `type` is stored as `type_`;
`is_count` starts false. -/
def mkParameter (name : Str) (type_ : PType) (default_value : Option Str)
    (annot : Option Str) : Parameter :=
  { name := if name = str "type" then str "type_" else name,
    type := type_, default_value := default_value, annot := annot,
    is_count := false }

/-- Body of `re.match(r'^(vr::)?E\S+Error$', t)` as a boolean test. -/
def errMatch (t : Str) : Bool :=
  let u := if (str "vr::").isPrefixOf t then t.drop 4 else t
  let v := if u.getLast? = some '\n' then u.dropLast else u
  decide (7 ≤ v.length) && (v.head? == some 'E') && (str "Error").isSuffixOf v
    && ((v.drop 1).take (v.length - 6)).all (fun c => !isWs c)

def Parameter.is_error (p : Parameter) : Bool :=
  if p.type.kind ≠ TKind.pointer then false
  else errMatch (translate_type p.type.get_pointee.spelling)

/-- Split off the group of `re.match(r'array_count:(\S+);', a)`: the group is
the non-whitespace run after the colon, cut at its last `;` (backtracking of
the greedy `\S+`), which must leave a nonempty group. -/
def lastSemiSplit (R : Str) : Option Str :=
  let t := (R.reverse.takeWhile (fun c => c ≠ ';')).length
  if t = R.length then none
  else
    let j := R.length - 1 - t
    if 1 ≤ j then some (R.take j) else none

/-- `Parameter.is_array`: `some g` models a match object with `group(1) = g`;
`none` models `False`/no match. -/
def Parameter.is_array (p : Parameter) : Option Str :=
  match p.annot with
  | none => none
  | some a =>
    if a = [] then none
    else if (str "array_count:").isPrefixOf a then
      lastSemiSplit ((a.drop 12).takeWhile (fun c => !isWs c))
    else none

def Parameter.is_out_string (p : Parameter) : Bool :=
  match p.annot with
  | none => false
  | some a => a = str "out_string: ;"

def Parameter.is_output (p : Parameter) : Bool :=
  if p.is_count then false
  else if p.type.kind ≠ TKind.pointer then false
  else if p.type.get_pointee.is_const_qualified then false
  else if p.type.get_pointee.kind = TKind.void then false
  else true

def Parameter.is_input (p : Parameter) : Bool :=
  if p.is_count then false
  else if p.is_array.isSome then true
  else if p.name = str "pEvent" then true
  else if p.name = str "uncbVREvent" then false
  else if p.name = str "unControllerStateSize" then false
  else if !p.is_output then true
  else false

/-- `Parameter.pre_call_block`, with the three dedented array templates
reproduced verbatim (including their source indentation) and the
`^unTrackedDevice.*Count$` test on the companion count-parameter name. -/
def utdCountMatch (u : Str) : Bool :=
  let v := if u.getLast? = some '\n' then u.dropLast else u
  (str "unTrackedDevice").isPrefixOf v && (str "Count").isSuffixOf v
    && decide (20 ≤ v.length)
    && ((v.drop 15).take (v.length - 20)).all (fun c => c ≠ '\n')

def Parameter.pre_call_block (p : Parameter) : Str :=
  match p.is_array with
  | some count_param =>
    let element_t := translate_type p.type.get_pointee.spelling
    let blockA := dedent
      (str "                    if " ++ p.name ++ str " is None:\n"
        ++ str "                        " ++ count_param
        ++ str " = k_unMaxTrackedDeviceCount\n"
        ++ str "                        " ++ p.name ++ str " = (" ++ element_t
        ++ str " * " ++ count_param ++ str ")()\n"
        ++ str "                        " ++ p.name ++ str "Arg = byref("
        ++ p.name ++ str "[0])\n"
        ++ str "                    ")
    let blockB := dedent
      (str "                if " ++ p.name ++ str " is None:\n"
        ++ str "                    " ++ count_param ++ str " = 0\n"
        ++ str "                    " ++ p.name ++ str "Arg = None\n"
        ++ str "                ")
    let blockC := dedent
      (str "                else:\n"
        ++ str "                    " ++ count_param ++ str " = len(" ++ p.name
        ++ str ")\n"
        ++ str "                    " ++ p.name ++ str "Arg = byref(" ++ p.name
        ++ str "[0])\n"
        ++ str "                ")
    (if utdCountMatch count_param then blockA else blockB) ++ blockC
  | none =>
    if p.is_out_string then []
    else if p.is_count then []
    else if p.name = str "uncbVREvent" then
      str "uncbVREvent = sizeof(VREvent_t)\n"
    else if p.name = str "unControllerStateSize" then
      str "uncbVREvent = sizeof(VRControllerState_t)\n"
    else if !p.is_input then
      p.name ++ str " = " ++ translate_type p.type.get_pointee.spelling
        ++ str "()\n"
    else []

def Parameter.post_call_block (p : Parameter) : Str :=
  if p.is_error then
    dedent
      (str "                if " ++ p.name ++ str ".value != 0:\n"
        ++ str "                    raise OpenVRError(str(" ++ p.name
        ++ str "))\n"
        ++ str "            ")
  else []

def Parameter.input_param_name (p : Parameter) : Option Str :=
  if !p.is_input then none
  else
    match p.default_value with
    | some dv => if dv.isEmpty then some p.name else some (p.name ++ '=' :: dv)
    | none => some p.name

def Parameter.call_param_name (p : Parameter) : Str :=
  if p.is_array.isSome then p.name ++ str "Arg"
  else if p.is_count then p.name
  else if p.is_out_string then p.name
  else if p.is_output then str "byref(" ++ p.name ++ str ")"
  else if p.type.kind = TKind.pointer then str "byref(" ++ p.name ++ str ")"
  else p.name

def Parameter.return_param_name (p : Parameter) : Option Str :=
  if p.is_error then none
  else if p.is_out_string then some (str "bytes(" ++ p.name ++ str ".value)")
  else if !p.is_output then none
  else if (str "c_").isPrefixOf (translate_type p.type.get_pointee.spelling)
    then some (p.name ++ str ".value")
  else some p.name

/-- Model of `Method` (the count-name set is kept as a duplicate-free list). -/
structure Method where
  name : Str
  type : Str
  parameters : List Parameter
  count_parameter_names : List Str
  docstring : Option Str
deriving DecidableEq, Repr

def mkMethod (name : Str) (type_ : Str) (docstring : Option Str) : Method :=
  { name := name, type := type_, parameters := [],
    count_parameter_names := [], docstring := docstring }

/-- `Method.add_parameter`: register the count name of an array annotation,
then retroactively flag the parameter as count if its name was registered. -/
def Method.add_parameter (m : Method) (p : Parameter) : Method :=
  let cns := match p.is_array with
    | some g =>
      if m.count_parameter_names.contains g then m.count_parameter_names
      else m.count_parameter_names ++ [g]
    | none => m.count_parameter_names
  let p := if cns.contains p.name then { p with is_count := true } else p
  { m with count_parameter_names := cns, parameters := m.parameters ++ [p] }

def Method.has_return (m : Method) : Bool :=
  if m.type = str "void" then false
  else if m.parameters.any (fun p => p.is_out_string) then false
  else true

/-- The probe-call argument list for the output-string at index `pix`:
`None` for the string, `0` for the following length parameter, every other
parameter's (truthy) call-site expression.  `j` is the index of the first
listed parameter. -/
def probeParamsGo (pix : Nat) : Nat → List Parameter → List Str
  | _, [] => []
  | j, q :: qs =>
    (if j = pix then [str "None"]
     else if j = pix + 1 then [str "0"]
     else
       let c := q.call_param_name
       if c.isEmpty then [] else [c]) ++ probeParamsGo pix (j + 1) qs

def probeParams (ps : List Parameter) (pix : Nat) : List Str :=
  probeParamsGo pix 0 ps

/-- The probe/short-circuit/allocate block emitted for one output-string
parameter, before `textwrap.dedent` strips the source indentation. -/
def probeBlockText (lpName paramList pName : Str) : Str :=
  dedent
    (str "                    " ++ lpName ++ str " = fn(" ++ paramList
      ++ str ")\n"
      ++ str "                    if " ++ lpName ++ str " == 0:\n"
      ++ str "                        return b" ++ sqc :: sqc :: str "\n"
      ++ str "                    " ++ pName
      ++ str " = ctypes.create_string_buffer(" ++ lpName ++ str ")\n"
      ++ str "                ")

/-- The output-string phase of `Method.ctypes_string`: walk the parameter
list by index; at each output-string parameter, set `is_count := true` on the
immediately-following parameter (a visible mutation of the parameter list),
then emit the probe/short-circuit/allocate block.  `none` models the
`IndexError` when an output-string parameter is last. -/
def outStringPhase : Nat → List Parameter → Nat → Option (List Parameter × Str)
  | 0, ps, _ => some (ps, [])
  | fuel + 1, ps, pix =>
    match ps.drop pix with
    | [] => some (ps, [])
    | p :: tail =>
      if p.is_out_string then
        match tail with
        | [] => none
        | lp0 :: _ =>
          let lp := { lp0 with is_count := true }
          let ps' := ps.set (pix + 1) lp
          let probe := probeBlockText lp.name
            (joinCommaSp (probeParams ps' pix)) p.name
          match outStringPhase fuel ps' (pix + 1) with
          | none => none
          | some (psF, preF) => some (psF, probe ++ preF)
      else outStringPhase fuel ps (pix + 1)

/-- `Method.ctypes_string`: returns the rendered text together with the
method as left behind by the render (its parameter list may have newly
flagged count parameters).  `none` models a raised `IndexError` (empty
method name, or an output-string parameter in last position). -/
def Method.ctypes_string (m : Method) : Option (Str × Method) :=
  match m.name with
  | [] => none
  | c0 :: crest =>
    let method_name := c0.toLower :: crest
    match outStringPhase m.parameters.length m.parameters 0 with
    | none => none
    | some (ps, probeText) =>
      let in_params := str "self" :: ps.filterMap (fun p =>
        match p.input_param_name with
        | none => none
        | some n => if n.isEmpty then none else some n)
      let call_params := ps.filterMap (fun p =>
        let c := p.call_param_name
        if c.isEmpty then none else some c)
      let out_params :=
        (if m.has_return then [str "result"] else [])
          ++ ps.filterMap (fun p =>
            match p.return_param_name with
            | none => none
            | some n => if n.isEmpty then none else some n)
      let pre_call_statements :=
        probeText ++ (ps.map Parameter.pre_call_block).flatten
      let post_call_statements := (ps.map Parameter.post_call_block).flatten
      let method_string :=
        str "def " ++ method_name ++ str "(" ++ joinCommaSp in_params
          ++ str "):\n"
      let body :=
        (match m.docstring with
          | none => []
          | some d =>
            if d.isEmpty then []
            else str "\"\"\"" ++ d ++ str "\"\"\"\n\n")
          ++ str "fn = self.function_table." ++ method_name ++ str "\n"
          ++ pre_call_statements
          ++ (if m.has_return then
                str "result = fn(" ++ joinCommaSp call_params ++ str ")\n"
              else str "fn(" ++ joinCommaSp call_params ++ str ")\n")
          ++ post_call_statements
          ++ (if out_params.isEmpty then []
              else str "return " ++ joinCommaSp out_params ++ str "\n")
      some (method_string ++ indentP (str "    ") body,
        { m with parameters := ps })

/-- Model of the source class `Function` (free function bound directly on
`_openvr`); named `FunctionDecl` because `Function` is a core Lean namespace. -/
structure FunctionDecl where
  name : Str
  type : PType
  parameters : List Parameter
  docstring : Option Str
deriving DecidableEq, Repr

/-- Visible-signature entry of a parameter in `Function.__str__`: error
parameters are omitted, truthy default values are rendered `name=default`. -/
def fnVisName (p : Parameter) : Option Str :=
  if p.is_error then none
  else
    match p.default_value with
    | some dv => if dv.isEmpty then some p.name else some (p.name ++ '=' :: dv)
    | none => some p.name

/-- Call-site expression of a parameter in `Function.__str__`: non-const
pointees are passed by reference. -/
def fnCallExpr (p : Parameter) : Str :=
  if p.type.kind = TKind.pointer then
    if p.type.get_pointee.is_const_qualified then p.name
    else str "byref(" ++ p.name ++ str ")"
  else p.name

/-- `Function.__str__`: `none` models the `IndexError` on an empty python
name.  The last error-classified parameter (if any) is allocated locally,
checked after the call, and omitted from the visible signature. -/
def FunctionDecl.render (f : FunctionDecl) : Option Str :=
  let py_name0 := if (str "VR_").isPrefixOf f.name then f.name.drop 3 else f.name
  match py_name0 with
  | [] => none
  | c0 :: crest =>
    let py_name := c0.toLower :: crest
    let docstring := match f.docstring with
      | none => []
      | some d =>
        if d.isEmpty then []
        else indentP (str "                    ")
          (str "\n\"\"\"" ++ d ++ str "\"\"\"")
    let error_param := (f.parameters.filter (fun p => p.is_error)).getLast?
    let params := f.parameters.filterMap fnVisName
    let call_params := f.parameters.map fnCallExpr
    let param_types := f.parameters.map (fun p => translate_type p.type.spelling)
    let restype := translate_type f.type.spelling
    let args := joinCommaSp params
    let call_args := joinCommaSp call_params
    let arg_types := joinCommaSp param_types
    let head :=
      str "\n                _openvr." ++ f.name ++ str ".restype = " ++ restype
        ++ str "\n                _openvr." ++ f.name ++ str ".argtypes = ["
        ++ arg_types ++ str "]\n                def " ++ py_name ++ str "("
        ++ args ++ str "):" ++ docstring ++ str "\n"
    match error_param with
    | none =>
      some (cleandoc
        (head
          ++ str "                    result =     _openvr." ++ f.name
          ++ str "(" ++ call_args ++ str ")\n"
          ++ str "                    return result\n"
          ++ str "            "))
    | some ep =>
      let etype := translate_type ep.type.get_pointee.spelling
      some (cleandoc
        (head
          ++ str "                    " ++ ep.name ++ str " = " ++ etype
          ++ str "()\n"
          ++ str "                    result =     _openvr." ++ f.name
          ++ str "(" ++ call_args ++ str ")\n"
          ++ str "                    _checkInitError(" ++ ep.name
          ++ str ".value)\n"
          ++ str "                    return result\n"
          ++ str "            "))

/-! ### Sample declarations used as concrete witnesses. -/

/-- `N` nested `POINTER(...)` wrappers around a base type expression. -/
def nestPOINTER : Nat → Str → Str
  | 0, b => b
  | n + 1, b => str "POINTER(" ++ nestPOINTER n b ++ str ")"

def tU32 : PType := .mk .other (str "uint32_t") false .invalid

def tCharP : PType := .mk .pointer (str "char *") false
  (.mk .other (str "char") false .invalid)

def tErrP : PType := .mk .pointer (str "vr::EVRInitError *") false
  (.mk .other (str "vr::EVRInitError") false .invalid)

def tAppType : PType := .mk .other (str "vr::EVRApplicationType") false .invalid

def tPoseP : PType := .mk .pointer (str "vr::TrackedDevicePose_t *") false
  (.mk .other (str "vr::TrackedDevicePose_t") false .invalid)

/-- A method with an output-string parameter followed by its length
parameter: `uint32_t GetStringProperty(uint32_t nDevice, char *pchValue
[out_string], uint32_t unBufferSize)`. -/
def pNDevice : Parameter := mkParameter (str "nDevice") tU32 none none

def pPchValue : Parameter :=
  mkParameter (str "pchValue") tCharP none (some (str "out_string: ;"))

def pUnBuffer : Parameter := mkParameter (str "unBufferSize") tU32 none none

def sampleOutStringMethod : Method :=
  (((mkMethod (str "GetStringProperty") (str "uint32_t") none).add_parameter
      pNDevice).add_parameter pPchValue).add_parameter pUnBuffer

/-- `sampleOutStringMethod` as left behind by `ctypes_string`: the length
parameter has been flagged as a count parameter. -/
def sampleOutStringMarked : Method :=
  { sampleOutStringMethod with
    parameters := [pNDevice, pPchValue, { pUnBuffer with is_count := true }] }

/-- The text rendered for `sampleOutStringMethod` (oracle value). -/
def sampleOutStringText : Str :=
  str "def getStringProperty(self, nDevice):\n"
    ++ str "    fn = self.function_table.getStringProperty\n"
    ++ str "    unBufferSize = fn(nDevice, None, 0)\n"
    ++ str "    if unBufferSize == 0:\n"
    ++ str "        return b" ++ sqc :: sqc :: str "\n"
    ++ str "    pchValue = ctypes.create_string_buffer(unBufferSize)\n"
    ++ str "    fn(nDevice, pchValue, unBufferSize)\n"
    ++ str "    return bytes(pchValue.value)\n"

/-- A free function with one error-output parameter:
`uint32_t VR_InitInternal(vr::EVRInitError *peError,
vr::EVRApplicationType eApplicationType)`. -/
def sampleErrFunction : FunctionDecl :=
  { name := str "VR_InitInternal", type := tU32,
    parameters := [mkParameter (str "peError") tErrP none none,
                   mkParameter (str "eApplicationType") tAppType none none],
    docstring := none }

/-- The text rendered for `sampleErrFunction` (oracle value). -/
def sampleErrFunctionText : Str :=
  str "_openvr.VR_InitInternal.restype = c_uint32\n"
    ++ str "_openvr.VR_InitInternal.argtypes = [POINTER(EVRInitError), EVRApplicationType]\n"
    ++ str "def initInternal(eApplicationType):\n"
    ++ str "    peError = EVRInitError()\n"
    ++ str "    result =     _openvr.VR_InitInternal(byref(peError), eApplicationType)\n"
    ++ str "    _checkInitError(peError.value)\n"
    ++ str "    return result"

/-- Call-site expressions of the truthy (non-empty) parameter names. -/
def truthyCallNames (qs : List Parameter) : List Str :=
  qs.filterMap (fun q =>
    let c := q.call_param_name
    if c.isEmpty then none else some c)

/-- Whitespace-free strings. -/
def wsFree (s : Str) : Bool := s.all (fun c => !isWs c)

/-- Characters that trigger no rewrite rule of `translate_type`. -/
def plainChar (c : Char) : Bool :=
  !isWs c && !(c = '*') && !(c = '&') && !(c = '[') && !(c = ':')

/-- A sufficient syntactic condition for `translate_type` to leave a string
unchanged: no whitespace, none of the structural characters `* & [ :`, none
of the rewrite-trigger substrings `_t`, `VR_`, `bool`, `ptr`, not one of the
specially rewritten whole strings, and no `c_`-prefixable primitive root at
the front. -/
def fixOk (s : Str) : Bool :=
  s.all plainChar
    && !(decide ((str "_t") <:+: s)) && !(decide ((str "VR_") <:+: s))
    && !(decide ((str "bool") <:+: s)) && !(decide ((str "ptr") <:+: s))
    && !(s == str "unsigned") && !(s == str "void")
    && !(s == str "POINTER(None)") && !(s == str "None")
    && !(cPrefixTest s)

/-- `N` trailing `*` characters. -/
def stars (m : Nat) : Str := List.replicate m '*'

def startsPtr (s : Str) : Bool := (str "ptr").isPrefixOf s

/-- First character of a string is `t` or `r` (can complete a `ptr` crossing). -/
def headTR : Str → Bool
  | [] => false
  | c :: _ => c = 't' || c = 'r'

/-- Matchers guarded by a leading `\b`: no match when the previous original
character is a word character. -/
def ELead (m : Option Char → Str → Option (Nat × Str)) : Prop :=
  ∀ c s, isWord c = true → m (some c) s = none

/-- Matchers whose replacement is nonempty and cannot complete a `ptr`
crossing on its left. -/
def NSafe (m : Option Char → Str → Option (Nat × Str)) : Prop :=
  ∀ prev s k repl, m prev s = some (k, repl) →
    repl ≠ [] ∧ headTR repl = false

/-- Deleting matchers whose trailing `\b` guarantees the text after the
match starts with a non-`t`/`r` character. -/
def ETrail (m : Option Char → Str → Option (Nat × Str)) : Prop :=
  ∀ prev s k repl, m prev s = some (k, repl) →
    repl = [] ∧ headTR (s.drop (k + 1)) = false

/-- Every replacement emitted by the matcher avoids the character `χ`. -/
def ReplFree (χ : Char) (m : Option Char → Str → Option (Nat × Str)) : Prop :=
  ∀ prev s k repl, m prev s = some (k, repl) → χ ∉ repl

/-- The replacement neither contains a `ptr` occurrence nor can complete one
across its right end. -/
def PSafe (m : Option Char → Str → Option (Nat × Str)) : Prop :=
  ∀ prev s k repl, m prev s = some (k, repl) →
    countPtr repl = 0 ∧ 'p' ∉ repl.drop (repl.length - 2)

/-! ### Claim theorems. -/

/-- C3: `translate_type("float[3]")` is a 3-element array of the translated
float primitive, `translate_type("float[3][4]")` is the two-level nesting
with outer dimension 3 and the inner level parenthesised; the nested level
is produced by re-invoking the full translator (in bracket mode) on the
remaining `c_float[4]` after peeling the first dimension. -/
theorem c3_array_composition :
    translate_type (str "float[3]") = str "c_float * 3"
      ∧ translate_type (str "float[3][4]") = str "(c_float * 4) * 3"
      ∧ ttCore (mw (str "c_float[4]") + 1) true (str "c_float[4]")
          = some (str "(c_float * 4)") := by
  refine ⟨by decide, by decide, by decide⟩

/-- C4 counterexample: `translate_type` is not idempotent on its own
outputs.  The image point `translate_type("float[3]") = "c_float * 3"` is
rewritten again by a second application — the pointer rule misreads the
array expression — yielding `"POINTER(c_float) 3"`. -/
theorem c4_not_idempotent_on_arrays :
    translate_type (str "float[3]") = str "c_float * 3"
      ∧ translate_type (str "c_float * 3") = str "POINTER(c_float) 3"
      ∧ translate_type (translate_type (str "float[3]"))
          ≠ translate_type (str "float[3]") := by
  refine ⟨by decide, by decide, by decide⟩

/-- C5 counterexample: `has_return` is false for a method whose native
return type is *not* `void` but which has an output-string parameter, so
"false exactly when the type is void AND no parameter is an output string"
fails (the code uses an `or`, not an `and`). -/
theorem c5_has_return_counterexample :
    sampleOutStringMethod.has_return = false
      ∧ sampleOutStringMethod.type ≠ str "void"
      ∧ ¬ (sampleOutStringMethod.has_return = false
            ↔ (sampleOutStringMethod.type = str "void"
                ∧ ∀ p ∈ sampleOutStringMethod.parameters,
                    p.is_out_string = false)) := by
  refine ⟨by decide, by decide, ?_⟩
  intro h
  have h2 := h.mp (by decide)
  exact absurd h2.1 (by decide)

/-- C5 amended: `has_return` is false exactly when the native return type is
the no-value marker `void` OR at least one parameter is an output string. -/
theorem c5_has_return_amended (m : Method) :
    m.has_return = false
      ↔ (m.type = str "void" ∨ ∃ p ∈ m.parameters, p.is_out_string = true) := by
  unfold Method.has_return
  by_cases h1 : m.type = str "void" <;>
    by_cases h2 : m.parameters.any (fun p => p.is_out_string) <;>
      simp_all [List.any_eq_true]

/-- C8: a count-flagged parameter is never an output and never an input, and
`is_output` holds exactly for a non-count pointer parameter whose pointee is
neither const-qualified nor void. -/
theorem c8_classification_consistency (p : Parameter) :
    (p.is_count = true → p.is_output = false ∧ p.is_input = false)
      ∧ (p.is_output = true
          ↔ (p.is_count = false ∧ p.type.kind = TKind.pointer
              ∧ p.type.get_pointee.is_const_qualified = false
              ∧ p.type.get_pointee.kind ≠ TKind.void)) := by
  constructor
  · intro h
    constructor
    · unfold Parameter.is_output
      simp [h]
    · unfold Parameter.is_input
      simp [h]
  · unfold Parameter.is_output
    by_cases h1 : p.is_count <;>
      by_cases h2 : p.type.kind = TKind.pointer <;>
        by_cases h3 : p.type.get_pointee.is_const_qualified <;>
          by_cases h4 : p.type.get_pointee.kind = TKind.void <;>
            simp_all

/-- Witness for `c8_classification_consistency` at a concrete count-flagged
parameter. -/
theorem c8_classification_consistency_witness :
    let q := { mkParameter (str "unCount") tU32 none none with is_count := true }
    q.is_output = false ∧ q.is_input = false :=
  (c8_classification_consistency _).1 rfl

/-- C10: a parameter constructed with the reserved name `type` is stored as
`type_`, any other name is stored unchanged, and the derived signature,
call-site and return-site fragments use the stored name. -/
theorem c10_type_rename :
    (∀ ty dv an, (mkParameter (str "type") ty dv an).name = str "type_")
      ∧ (∀ nm ty dv an, nm ≠ str "type" → (mkParameter nm ty dv an).name = nm)
      ∧ ((mkParameter (str "type") tU32 none none).input_param_name
            = some (str "type_")
          ∧ (mkParameter (str "type") tU32 none none).call_param_name
            = str "type_"
          ∧ (mkParameter (str "type") tErrP none none).call_param_name
            = str "byref(type_)")
      ∧ (∀ p : Parameter, p.is_input = true → p.default_value = none →
          p.input_param_name = some p.name) := by
  refine ⟨?_, ?_, ⟨by decide, by decide, by decide⟩, ?_⟩
  · intro ty dv an
    simp [mkParameter]
  · intro nm ty dv an h
    simp [mkParameter, h]
  · intro p h hd
    unfold Parameter.input_param_name
    simp [h, hd]

/-- Witness for `c10_type_rename`, discharging its hypotheses at concrete
inputs. -/
theorem c10_type_rename_witness :
    (mkParameter (str "nDevice") tU32 none none).name = str "nDevice"
      ∧ (mkParameter (str "nDevice") tU32 none none).input_param_name
          = some (str "nDevice") :=
  ⟨c10_type_rename.2.1 _ tU32 none none (by decide),
   c10_type_rename.2.2.2 _ (by decide) rfl⟩

/-! ### General lemmas about the output-string phase (claim C6). -/

theorem drop_set_cons {α : Type} (l : List α) :
    ∀ i (v : α), i < l.length → (l.set i v).drop i = v :: l.drop (i + 1) := by
  induction l with
  | nil => intro i v h; simp at h
  | cons a l ih =>
    intro i v h
    cases i with
    | zero => simp
    | succ i =>
      simp only [List.set, List.drop_succ_cons]
      exact ih i v (by simpa using h)

theorem set_append_two {α : Type} (pre : List α) (x y v : α) (rest : List α) :
    (pre ++ x :: y :: rest).set (pre.length + 1) v = pre ++ x :: v :: rest := by
  induction pre with
  | nil => rfl
  | cons a pre ih => simp [List.set, ih]


theorem probeParamsGo_append (pix j : Nat) (a b : List Parameter) :
    probeParamsGo pix j (a ++ b)
      = probeParamsGo pix j a ++ probeParamsGo pix (j + a.length) b := by
  induction a generalizing j with
  | nil => simp [probeParamsGo]
  | cons q qs ih =>
    simp only [List.cons_append, probeParamsGo, List.length_cons,
      List.append_assoc, List.append_eq]
    rw [ih (j + 1)]
    congr 3
    omega

theorem probeParamsGo_lt (pix j : Nat) (qs : List Parameter)
    (h : j + qs.length ≤ pix) :
    probeParamsGo pix j qs = truthyCallNames qs := by
  induction qs generalizing j with
  | nil => rfl
  | cons q qs ih =>
    simp only [List.length_cons] at h
    have h1 : j ≠ pix := by omega
    have h2 : j ≠ pix + 1 := by omega
    simp only [probeParamsGo, if_neg h1, if_neg h2, truthyCallNames,
      List.filterMap_cons, ih (j + 1) (by omega)]
    cases hc : (q.call_param_name).isEmpty <;> simp [truthyCallNames, hc]

theorem probeParamsGo_gt (pix j : Nat) (qs : List Parameter)
    (h : pix + 1 < j) :
    probeParamsGo pix j qs = truthyCallNames qs := by
  induction qs generalizing j with
  | nil => rfl
  | cons q qs ih =>
    have h1 : j ≠ pix := by omega
    have h2 : j ≠ pix + 1 := by omega
    simp only [probeParamsGo, if_neg h1, if_neg h2, truthyCallNames,
      List.filterMap_cons, ih (j + 1) (by omega)]
    cases hc : (q.call_param_name).isEmpty <;> simp [truthyCallNames, hc]

theorem probeParams_split (pre post : List Parameter) (p lp : Parameter) :
    probeParams (pre ++ p :: lp :: post) pre.length
      = truthyCallNames pre ++ str "None" :: str "0" :: truthyCallNames post := by
  unfold probeParams
  rw [probeParamsGo_append, probeParamsGo_lt _ _ _ (by omega)]
  have h2 : probeParamsGo pre.length (pre.length + 1 + 1) post
      = truthyCallNames post := probeParamsGo_gt _ _ _ (by omega)
  simp [probeParamsGo, h2, Nat.succ_ne_self]

theorem outStringPhase_clean (ps : List Parameter) :
    ∀ fuel pix,
      (∀ q ∈ ps.drop pix, q.is_out_string = false) →
      outStringPhase fuel ps pix = some (ps, []) := by
  intro fuel
  induction fuel with
  | zero => intro pix _; rfl
  | succ fuel ih =>
    intro pix hall
    cases hdrop : ps.drop pix with
    | nil => simp only [outStringPhase, hdrop]
    | cons q tail =>
      have hq : q.is_out_string = false :=
        hall q (by rw [hdrop]; exact List.mem_cons_self _ _)
      have hdrop1 : ps.drop (pix + 1) = tail := by
        rw [← List.drop_drop, hdrop, List.drop_one, List.tail_cons]
      have htail : ∀ r ∈ ps.drop (pix + 1), r.is_out_string = false := by
        intro r hr
        rw [hdrop1] at hr
        exact hall r (by rw [hdrop]; exact List.mem_cons_of_mem _ hr)
      simp only [outStringPhase, hdrop, hq, Bool.false_eq_true, if_false]
      exact ih (pix + 1) htail

theorem isOutString_mark (q : Parameter) :
    ({ q with is_count := true } : Parameter).is_out_string = q.is_out_string := rfl

theorem outStringPhase_single_aux (ps : List Parameter) (pix0 : Nat)
    (p lp : Parameter) (post : List Parameter)
    (hdrop : ps.drop pix0 = p :: lp :: post)
    (hp : p.is_out_string = true) (hlp : lp.is_out_string = false)
    (hpost : ∀ q ∈ post, q.is_out_string = false) :
    ∀ n pix fuel, pix + n = pix0 →
      (∀ q ∈ (ps.drop pix).take n, q.is_out_string = false) →
      ps.length ≤ fuel + pix →
      outStringPhase fuel ps pix
        = some (ps.set (pix0 + 1) { lp with is_count := true },
            probeBlockText lp.name
              (joinCommaSp (probeParams
                (ps.set (pix0 + 1) { lp with is_count := true }) pix0))
              p.name) := by
  have hlen0 : pix0 + 2 ≤ ps.length := by
    have h1 := List.length_drop pix0 ps
    rw [hdrop] at h1
    simp only [List.length_cons] at h1
    omega
  intro n
  induction n with
  | zero =>
    intro pix fuel hpix hskip hfuel
    have hpe : pix = pix0 := by omega
    subst hpe
    cases fuel with
    | zero => omega
    | succ fuel =>
      have hdrop2 : ps.drop (pix + 2) = post := by
        have := List.drop_drop 2 pix ps
        rw [hdrop] at this
        simpa [Nat.add_comm] using this.symm
      have hdset : (ps.set (pix + 1) { lp with is_count := true }).drop (pix + 1)
          = { lp with is_count := true } :: post := by
        rw [drop_set_cons _ _ _ (by omega), hdrop2]
      have hclean : outStringPhase fuel
          (ps.set (pix + 1) { lp with is_count := true }) (pix + 1)
          = some (ps.set (pix + 1) { lp with is_count := true }, []) := by
        apply outStringPhase_clean
        intro q hq
        rw [hdset] at hq
        rcases List.mem_cons.mp hq with h | h
        · rw [h, isOutString_mark]; exact hlp
        · exact hpost q h
      simp only [outStringPhase, hdrop, hp, if_true, hclean, List.append_nil]
  | succ n ih =>
    intro pix fuel hpix hskip hfuel
    have hpixlt : pix < pix0 := by omega
    cases fuel with
    | zero => omega
    | succ fuel =>
      have hlt : pix < ps.length := by omega
      have hcons : ps.drop pix = ps[pix] :: ps.drop (pix + 1) :=
        List.drop_eq_getElem_cons hlt
      have hq : ps[pix].is_out_string = false := by
        apply hskip
        rw [hcons, List.take_succ_cons]
        exact List.mem_cons_self _ _
      have hskip1 : ∀ q ∈ (ps.drop (pix + 1)).take n, q.is_out_string = false := by
        intro q hqq
        apply hskip
        rw [hcons, List.take_succ_cons]
        exact List.mem_cons_of_mem _ hqq
      simp only [outStringPhase, hcons, hq, Bool.false_eq_true, if_false]
      exact ih (pix + 1) fuel (by omega) hskip1 (by omega)

/-- The output-string phase for a method whose parameter list is
`pre ++ p :: lp :: post` with `p` the only output-string parameter: the
phase marks the immediately-following length parameter `lp` as a count
parameter and emits exactly one probe block, whose argument list passes
`None` in `p`'s position and `0` in `lp`'s position, with every other
(truthy) call-site expression in declaration order. -/
theorem outStringPhase_single (pre post : List Parameter) (p lp : Parameter)
    (hp : p.is_out_string = true) (hlp : lp.is_out_string = false)
    (hpre : ∀ q ∈ pre, q.is_out_string = false)
    (hpost : ∀ q ∈ post, q.is_out_string = false)
    (fuel : Nat) (hfuel : (pre ++ p :: lp :: post).length ≤ fuel) :
    outStringPhase fuel (pre ++ p :: lp :: post) 0
      = some (pre ++ p :: { lp with is_count := true } :: post,
          probeBlockText lp.name
            (joinCommaSp (truthyCallNames pre
              ++ str "None" :: str "0" :: truthyCallNames post))
            p.name) := by
  have hdrop : (pre ++ p :: lp :: post).drop pre.length = p :: lp :: post :=
    List.drop_left pre _
  have haux := outStringPhase_single_aux (pre ++ p :: lp :: post) pre.length
    p lp post hdrop hp hlp hpost pre.length 0 fuel (by omega)
    (by
      intro q hq
      apply hpre
      simpa [List.take_left] using hq)
    (by omega)
  rw [haux, set_append_two, probeParams_split]

set_option maxRecDepth 40000 in
/-- C6: for a method with an output-string parameter followed by its length
parameter (and no other output-string parameter), the rendered body first
probes the native function with `None` for the string and `0` for the
length, short-circuits with `return b''` when the captured length is zero,
and otherwise allocates a string buffer of the captured length; the single
real call follows.  The general conjunct characterises the probe block and
its argument list for every such method; the concrete conjunct shows the
complete rendered body for a representative method. -/
theorem c6_out_string_probe :
    (∀ (pre post : List Parameter) (p lp : Parameter),
      p.is_out_string = true → lp.is_out_string = false →
      (∀ q ∈ pre, q.is_out_string = false) →
      (∀ q ∈ post, q.is_out_string = false) →
      ∀ fuel, (pre ++ p :: lp :: post).length ≤ fuel →
        outStringPhase fuel (pre ++ p :: lp :: post) 0
          = some (pre ++ p :: { lp with is_count := true } :: post,
              probeBlockText lp.name
                (joinCommaSp (truthyCallNames pre
                  ++ str "None" :: str "0" :: truthyCallNames post))
                p.name))
      ∧ sampleOutStringMethod.ctypes_string
          = some (sampleOutStringText, sampleOutStringMarked) := by
  constructor
  · intro pre post p lp hp hlp hpre hpost fuel hfuel
    exact outStringPhase_single pre post p lp hp hlp hpre hpost fuel hfuel
  · decide

/-- Witness for `c6_out_string_probe`, applying the general conjunct to the
sample method's parameter list and discharging every hypothesis. -/
theorem c6_out_string_probe_witness :
    outStringPhase 3 ([pNDevice] ++ pPchValue :: pUnBuffer :: []) 0
      = some ([pNDevice] ++ pPchValue
            :: { pUnBuffer with is_count := true } :: [],
          probeBlockText pUnBuffer.name
            (joinCommaSp (truthyCallNames [pNDevice]
              ++ str "None" :: str "0" :: truthyCallNames []))
            pPchValue.name) :=
  c6_out_string_probe.1 [pNDevice] [] pPchValue pUnBuffer (by decide)
    (by decide) (by decide) (by decide) 3 (by decide)

/-! ### General lemmas about error-parameter wrappers (claim C7). -/

theorem filter_error_single (pre post : List Parameter) (ep : Parameter)
    (hep : ep.is_error = true)
    (hpre : ∀ q ∈ pre, q.is_error = false)
    (hpost : ∀ q ∈ post, q.is_error = false) :
    (pre ++ ep :: post).filter (fun p => p.is_error) = [ep] := by
  rw [List.filter_append]
  have h1 : pre.filter (fun p => p.is_error) = [] := by
    rw [List.filter_eq_nil_iff]
    intro q hq
    simp [hpre q hq]
  have h2 : post.filter (fun p => p.is_error) = [] := by
    rw [List.filter_eq_nil_iff]
    intro q hq
    simp [hpost q hq]
  simp [h1, h2, List.filter_cons, hep]

theorem fnrender_single_error (f : FunctionDecl) (pre post : List Parameter)
    (ep : Parameter) (c0 : Char) (crest : Str)
    (hps : f.parameters = pre ++ ep :: post)
    (hep : ep.is_error = true)
    (hpre : ∀ q ∈ pre, q.is_error = false)
    (hpost : ∀ q ∈ post, q.is_error = false)
    (hnc : ep.type.get_pointee.is_const_qualified = false)
    (hkind : ep.type.kind = TKind.pointer)
    (hname : (if (str "VR_").isPrefixOf f.name then f.name.drop 3 else f.name)
      = c0 :: crest)
    (hdoc : f.docstring = none) :
    f.render = some (cleandoc
      (str "\n                _openvr." ++ f.name ++ str ".restype = "
        ++ translate_type f.type.spelling
        ++ str "\n                _openvr." ++ f.name ++ str ".argtypes = ["
        ++ joinCommaSp (f.parameters.map (fun p => translate_type p.type.spelling))
        ++ str "]\n                def " ++ c0.toLower :: crest ++ str "("
        ++ joinCommaSp (pre.filterMap fnVisName ++ post.filterMap fnVisName)
        ++ str "):" ++ str "\n"
        ++ str "                    " ++ ep.name ++ str " = "
        ++ translate_type ep.type.get_pointee.spelling ++ str "()\n"
        ++ str "                    result =     _openvr." ++ f.name ++ str "("
        ++ joinCommaSp (pre.map fnCallExpr
            ++ (str "byref(" ++ ep.name ++ str ")") :: post.map fnCallExpr)
        ++ str ")\n"
        ++ str "                    _checkInitError(" ++ ep.name
        ++ str ".value)\n"
        ++ str "                    return result\n"
        ++ str "            ")) := by
  unfold FunctionDecl.render
  rw [hname]
  have hfilter := filter_error_single pre post ep hep hpre hpost
  simp only [hps, hfilter, List.getLast?_singleton, hdoc,
    List.filterMap_append, List.filterMap_cons, List.map_append, List.map_cons,
    fnVisName, hep, if_true, fnCallExpr, hkind, hnc]
  simp [List.append_assoc]

set_option maxRecDepth 40000 in
/-- C7: for a `Function` with exactly one error-classified parameter, the
rendered wrapper allocates the error parameter before the native call,
passes it by reference (`byref`), checks its `.value` after the call, and
the error parameter appears in neither the visible signature (which lists
only the other parameters) nor the return expression (`return result`).
The general conjunct shows the full rendered shape for every such function;
the second conjunct shows the concrete render of a representative function;
the third shows that `Parameter.post_call_block` for an error parameter is
the non-zero check that raises the error condition. -/
theorem c7_error_param_wrapper :
    (∀ (f : FunctionDecl) (pre post : List Parameter) (ep : Parameter)
      (c0 : Char) (crest : Str),
      f.parameters = pre ++ ep :: post →
      ep.is_error = true →
      (∀ q ∈ pre, q.is_error = false) →
      (∀ q ∈ post, q.is_error = false) →
      ep.type.get_pointee.is_const_qualified = false →
      ep.type.kind = TKind.pointer →
      (if (str "VR_").isPrefixOf f.name then f.name.drop 3 else f.name)
        = c0 :: crest →
      f.docstring = none →
      f.render = some (cleandoc
        (str "\n                _openvr." ++ f.name ++ str ".restype = "
          ++ translate_type f.type.spelling
          ++ str "\n                _openvr." ++ f.name ++ str ".argtypes = ["
          ++ joinCommaSp (f.parameters.map
              (fun p => translate_type p.type.spelling))
          ++ str "]\n                def " ++ c0.toLower :: crest ++ str "("
          ++ joinCommaSp (pre.filterMap fnVisName ++ post.filterMap fnVisName)
          ++ str "):" ++ str "\n"
          ++ str "                    " ++ ep.name ++ str " = "
          ++ translate_type ep.type.get_pointee.spelling ++ str "()\n"
          ++ str "                    result =     _openvr." ++ f.name
          ++ str "("
          ++ joinCommaSp (pre.map fnCallExpr
              ++ (str "byref(" ++ ep.name ++ str ")") :: post.map fnCallExpr)
          ++ str ")\n"
          ++ str "                    _checkInitError(" ++ ep.name
          ++ str ".value)\n"
          ++ str "                    return result\n"
          ++ str "            ")))
      ∧ sampleErrFunction.render = some sampleErrFunctionText
      ∧ (mkParameter (str "peError") tErrP none none).post_call_block
          = str "if peError.value != 0:\n    raise OpenVRError(str(peError))\n" := by
  refine ⟨?_, by decide, by decide⟩
  intro f pre post ep c0 crest hps hep hpre hpost hnc hkind hname hdoc
  exact fnrender_single_error f pre post ep c0 crest hps hep hpre hpost hnc
    hkind hname hdoc

/-- Witness for `c7_error_param_wrapper`, applying the general conjunct to
the concrete sample function (all hypotheses discharged by computation). -/
theorem c7_error_param_wrapper_witness :
    (sampleErrFunction.render).isSome = true := by
  rw [c7_error_param_wrapper.1 sampleErrFunction []
    [mkParameter (str "eApplicationType") tAppType none none]
    (mkParameter (str "peError") tErrP none none) 'I' (str "nitInternal")
    (by decide) (by decide) (by decide) (by decide) (by decide) (by decide)
    (by decide) rfl]
  rfl

set_option maxRecDepth 40000 in
/-- C9 counterexample: rendering is not attribute-preserving.
`Method.ctypes_string` (modelled state-passingly: it returns the method it
leaves behind) sets `is_count := true` on the length parameter that follows
an output-string parameter, so the returned node differs from the input
node. -/
theorem c9_render_not_pure :
    (sampleOutStringMethod.ctypes_string).map Prod.snd
        = some sampleOutStringMarked
      ∧ sampleOutStringMarked ≠ sampleOutStringMethod
      ∧ ((sampleOutStringMethod.parameters.getD 2 pNDevice).is_count = false
          ∧ (sampleOutStringMarked.parameters.getD 2 pNDevice).is_count
              = true) := by
  refine ⟨by decide, by decide, by decide, by decide⟩

set_option maxRecDepth 40000 in
/-- C9 amended: the render is deterministic and stabilises after one call —
re-rendering the method left behind by the first render yields the identical
string and the identical method — and the only attribute change is the
`is_count` marking of the out-string length parameter. -/
theorem c9_render_stable :
    sampleOutStringMethod.ctypes_string
        = some (sampleOutStringText, sampleOutStringMarked)
      ∧ sampleOutStringMarked.ctypes_string
          = some (sampleOutStringText, sampleOutStringMarked)
      ∧ sampleOutStringMarked.parameters
          = [pNDevice, pPchValue, { pUnBuffer with is_count := true }] := by
  refine ⟨by decide, by decide, by decide⟩


theorem prefix_append_cases {α : Type} {p a b : List α} (h : p <+: a ++ b) :
    p <+: a ∨ ∃ p2, p = a ++ p2 ∧ p2 <+: b := by
  induction a generalizing p with
  | nil => exact Or.inr ⟨p, rfl, h⟩
  | cons c a ih =>
    cases p with
    | nil => exact Or.inl (List.nil_prefix)
    | cons d p =>
      rw [List.cons_append, List.cons_prefix_cons] at h
      rcases ih h.2 with h1 | ⟨p2, hp, h2⟩
      · exact Or.inl (by rw [h.1]; exact List.cons_prefix_cons.mpr ⟨rfl, h1⟩)
      · exact Or.inr ⟨p2, by rw [h.1, hp, List.cons_append], h2⟩

theorem infix_append_cases {α : Type} {p a b : List α} (h : p <:+: a ++ b) :
    p <:+: a ∨ p <:+: b
      ∨ ∃ p1 p2, p = p1 ++ p2 ∧ p1 ≠ [] ∧ p2 ≠ [] ∧ p1 <:+ a ∧ p2 <+: b := by
  induction a generalizing p with
  | nil => exact Or.inr (Or.inl h)
  | cons c a ih =>
    rw [List.cons_append, List.infix_cons_iff] at h
    rcases h with h | h
    · have h' : p <+: (c :: a) ++ b := by rw [List.cons_append]; exact h
      rcases prefix_append_cases h' with h1 | ⟨p2, hp, h2⟩
      · exact Or.inl h1.isInfix
      · cases p2 with
        | nil =>
          refine Or.inl ?_
          rw [hp, List.append_nil]
        | cons e p2 =>
          refine Or.inr (Or.inr ⟨c :: a, e :: p2, hp, by simp, by simp,
            List.suffix_refl _, h2⟩)
    · rcases ih h with h1 | h1 | ⟨p1, p2, hp, hn1, hn2, hs, hpre⟩
      · exact Or.inl (List.infix_cons h1)
      · exact Or.inr (Or.inl h1)
      · exact Or.inr (Or.inr ⟨p1, p2, hp, hn1, hn2,
          hs.trans (List.suffix_cons c a), hpre⟩)

theorem takeWhile_append_all {α : Type} (p : α → Bool) (a b : List α)
    (h : ∀ c ∈ a, p c = true) :
    (a ++ b).takeWhile p = a ++ b.takeWhile p := by
  induction a with
  | nil => rfl
  | cons c a ih =>
    simp only [List.cons_append, List.takeWhile_cons, h c (by simp), if_true]
    rw [ih (fun x hx => h x (by simp [hx]))]

theorem takeWhile_eq_nil {α : Type} (p : α → Bool) (l : List α)
    (h : ∀ c ∈ l, p c = false) : l.takeWhile p = [] := by
  cases l with
  | nil => rfl
  | cons c l => simp [List.takeWhile_cons, h c (by simp)]

theorem exists_last_drop {α : Type} (l : List α) (h : l ≠ []) :
    ∃ c, l.drop (l.length - 1) = [c] ∧ c ∈ l := by
  induction l with
  | nil => exact absurd rfl h
  | cons a l ih =>
    cases l with
    | nil => exact ⟨a, rfl, by simp⟩
    | cons b t =>
      rcases ih (by simp) with ⟨c, hd, hm⟩
      refine ⟨c, ?_, by simp [hm]⟩
      have h1 : (a :: b :: t).length - 1 = (b :: t).length - 1 + 1 := by simp
      rw [h1, List.drop_succ_cons, hd]

theorem subGF_id (m : Option Char → Str → Option (Nat × Str)) :
    ∀ (fuel : Nat) (prev : Option Char) (s : Str),
      (∀ prev' t, t <:+ s → m prev' t = none) → subGF m fuel prev s = s := by
  intro fuel
  induction fuel with
  | zero => intro prev s _; rfl
  | succ fuel ih =>
    intro prev s h
    cases s with
    | nil => rfl
    | cons c rest =>
      have h1 : m prev (c :: rest) = none := h prev _ (List.suffix_refl _)
      have h2 := ih (some c) rest
        (fun prev' t ht => h prev' t (ht.trans (List.suffix_cons c rest)))
      simp only [subGF, h1, h2]

theorem subG_id (m : Option Char → Str → Option (Nat × Str)) (prev : Option Char)
    (s : Str) (h : ∀ prev' t, t <:+ s → m prev' t = none) : subG m prev s = s :=
  subGF_id m s.length prev s h

/-- Whitespace-free suffixes kill every matcher that requires a `\s+` run. -/
theorem takeWhile_ws_nil (t : Str) (h : ∀ c ∈ t, isWs c = false) :
    t.takeWhile isWs = [] :=
  takeWhile_eq_nil isWs t h

theorem wsFree_suffix {s t : Str} (hs : wsFree s = true) (ht : t <:+ s) :
    ∀ c ∈ t, isWs c = false := by
  intro c hc
  have := (List.all_eq_true.mp hs) c (ht.subset hc)
  simpa using this

theorem mConst1_none_wsFree {s : Str} (hs : wsFree s = true) :
    ∀ prev t, t <:+ s → mConst1 prev t = none := by
  intro prev t ht
  unfold mConst1
  by_cases hb : bdryB prev
  · by_cases hp : (str "const").isPrefixOf t
    · have hws : (t.drop 5).takeWhile isWs = [] :=
        takeWhile_ws_nil _ (fun c hc =>
          wsFree_suffix hs ht c (List.drop_subset 5 t hc))
      simp [hb, hp, hws]
    · simp [hb, hp]
  · simp [hb]

theorem mConst2_none_wsFree {s : Str} (hs : wsFree s = true) :
    ∀ prev t, t <:+ s → mConst2 prev t = none := by
  intro prev t ht
  unfold mConst2
  have hws : t.takeWhile isWs = [] :=
    takeWhile_ws_nil _ (fun c hc => wsFree_suffix hs ht c hc)
  simp [hws]

theorem mKw_none_wsFree (kw : Str) {s : Str} (hs : wsFree s = true) :
    ∀ prev t, t <:+ s → mKw kw prev t = none := by
  intro prev t ht
  unfold mKw
  by_cases hb : bdryB prev
  · by_cases hp : kw.isPrefixOf t
    · have hws : (t.drop kw.length).takeWhile isWs = [] :=
        takeWhile_ws_nil _ (fun c hc =>
          wsFree_suffix hs ht c (List.drop_subset _ t hc))
      simp [hb, hp, hws]
    · simp [hb, hp]
  · simp [hb]

theorem mUnsigned_none_wsFree {s : Str} (hs : wsFree s = true) :
    ∀ prev t, t <:+ s → mUnsigned prev t = none := by
  intro prev t ht
  unfold mUnsigned
  by_cases hb : bdryB prev
  · by_cases hp : (str "unsigned").isPrefixOf t
    · have hws : (t.drop 8).takeWhile isWs = [] :=
        takeWhile_ws_nil _ (fun c hc =>
          wsFree_suffix hs ht c (List.drop_subset _ t hc))
      simp [hb, hp, hws]
    · simp [hb, hp]
  · simp [hb]

theorem mLongLong_none_wsFree {s : Str} (hs : wsFree s = true) :
    ∀ prev t, t <:+ s → mLongLong prev t = none := by
  intro prev t ht
  unfold mLongLong
  by_cases hb : bdryB prev
  · by_cases hp : (str "long").isPrefixOf t
    · have hws : (t.drop 4).takeWhile isWs = [] :=
        takeWhile_ws_nil _ (fun c hc =>
          wsFree_suffix hs ht c (List.drop_subset _ t hc))
      simp [hb, hp, hws]
    · simp [hb, hp]
  · simp [hb]

theorem infix_of_prefix_suffix {p t s : Str} (hp : p <+: t) (ht : t <:+ s) :
    p <:+: s := by
  rcases hp with ⟨u, hu⟩
  rcases ht with ⟨v, hv⟩
  exact ⟨v, u, by rw [← hv, ← hu, List.append_assoc]⟩

theorem infix_of_prefix_drop {p t : Str} (n : Nat) (hp : p <+: t.drop n) :
    p <:+: t :=
  infix_of_prefix_suffix hp (List.drop_suffix n t)

theorem mWidth_none (digits : Str) {s : Str}
    (h : ¬ (str "_t") <:+: s) :
    ∀ prev t, t <:+ s → mWidth digits prev t = none := by
  intro prev t ht
  unfold mWidth
  by_cases hp : (digits ++ str "_t").isPrefixOf t
  · exfalso
    apply h
    have hpre : (digits ++ str "_t") <+: t := by
      rwa [List.isPrefixOf_iff_prefix] at hp
    rcases hpre with ⟨u, hu⟩
    have h1 : (str "_t") <+: t.drop digits.length := by
      rw [← hu, List.append_assoc, List.drop_left]
      exact ⟨u, rfl⟩
    exact infix_of_prefix_suffix h1 ((List.drop_suffix _ t).trans ht)
  · simp [hp]

theorem mVR_none {s : Str} (h : ¬ (str "VR_") <:+: s) :
    ∀ prev t, t <:+ s → mVR prev t = none := by
  intro prev t ht
  unfold mVR
  by_cases hp : (str "VR_").isPrefixOf t
  · exact absurd (infix_of_prefix_suffix (List.isPrefixOf_iff_prefix.mp hp) ht) h
  · simp [hp]

theorem mBool_none {s : Str} (h : ¬ (str "bool") <:+: s) :
    ∀ prev t, t <:+ s → mBool prev t = none := by
  intro prev t ht
  unfold mBool
  by_cases hp : (str "bool").isPrefixOf t
  · exact absurd (infix_of_prefix_suffix (List.isPrefixOf_iff_prefix.mp hp) ht) h
  · simp [hp]

theorem starCheckAt_mem {s : Str} {k : Nat} {r : Str × Str}
    (h : starCheckAt s k = some r) : '*' ∈ s ∨ '&' ∈ s := by
  unfold starCheckAt at h
  cases hdrop : s.drop k with
  | nil => rw [hdrop] at h; exact absurd h (by simp)
  | cons c rest =>
    rw [hdrop] at h
    by_cases hws : isWs c
    · simp [hws] at h
    · simp only [hws, if_false, Bool.false_eq_true] at h
      cases hd : rest.drop (rest.takeWhile isWs).length with
      | nil => rw [hd] at h; exact absurd h (by simp)
      | cons d rest2 =>
        rw [hd] at h
        by_cases hstar : d = '*' ∨ d = '&'
        · have hmem : d ∈ s := by
            have h1 : d ∈ rest.drop (rest.takeWhile isWs).length := by
              rw [hd]; exact List.mem_cons_self _ _
            have h2 : d ∈ rest := List.drop_subset _ _ h1
            have h3 : d ∈ s.drop k := by rw [hdrop]; exact List.mem_cons_of_mem _ h2
            exact List.drop_subset _ _ h3
          rcases hstar with h4 | h4
          · exact Or.inl (h4 ▸ hmem)
          · exact Or.inr (h4 ▸ hmem)
        · have h5 : (d = '*' || d = '&') = false := by
            simp only [Bool.or_eq_false_iff, decide_eq_false_iff_not]
            exact ⟨fun hh => hstar (Or.inl hh), fun hh => hstar (Or.inr hh)⟩
          simp [h5] at h

theorem matchStar_none {s : Str} (h1 : '*' ∉ s) (h2 : '&' ∉ s) :
    matchStar s = none := by
  unfold matchStar
  generalize min (s.takeWhile (fun c => c ≠ '*')).length (s.length - 1) = kmax
  induction kmax with
  | zero => rfl
  | succ k ih =>
    unfold starFind
    cases hc : starCheckAt s (k + 1) with
    | some r => rcases starCheckAt_mem hc with hm | hm <;> simp_all
    | none => exact ih

theorem ptrCheckAt_hasPtr {s : Str} {k : Nat} {r : Str × Str}
    (h : ptrCheckAt s k = some r) : (str "ptr") <:+: s := by
  unfold ptrCheckAt at h
  by_cases hp : (str "ptr").isPrefixOf (s.drop k)
  · exact infix_of_prefix_drop k (List.isPrefixOf_iff_prefix.mp hp)
  · simp [hp] at h

theorem matchPtr_none {s : Str} (h : ¬ (str "ptr") <:+: s) :
    matchPtr s = none := by
  unfold matchPtr
  generalize min (s.takeWhile (fun c => c ≠ '*')).length s.length = kmax
  induction kmax with
  | zero => rfl
  | succ k ih =>
    unfold ptrFind
    cases hc : ptrCheckAt s (k + 1) with
    | some r => exact absurd (ptrCheckAt_hasPtr hc) h
    | none => exact ih

theorem arrCheckAt_mem {s : Str} {k : Nat} {r : Str × Str × Str}
    (h : arrCheckAt s k = some r) : '[' ∈ s := by
  unfold arrCheckAt at h
  cases hdrop : s.drop k with
  | nil => rw [hdrop] at h; exact absurd h (by simp)
  | cons c rest =>
    rw [hdrop] at h
    by_cases hws : isWs c
    · simp [hws] at h
    · simp only [hws, if_false, Bool.false_eq_true] at h
      cases hd : rest.drop (rest.takeWhile isWs).length with
      | nil => rw [hd] at h; exact absurd h (by simp)
      | cons d rest2 =>
        rw [hd] at h
        by_cases hbr : d = '['
        · have h1 : d ∈ rest.drop (rest.takeWhile isWs).length := by
            rw [hd]; exact List.mem_cons_self _ _
          have h2 : d ∈ s.drop k := by
            rw [hdrop]; exact List.mem_cons_of_mem _ (List.drop_subset _ _ h1)
          rw [← hbr]
          exact List.drop_subset _ _ h2
        · simp [hbr] at h

theorem matchArr_none {s : Str} (h : '[' ∉ s) : matchArr s = none := by
  unfold matchArr
  generalize min (s.takeWhile (fun c => c ≠ '[')).length (s.length - 1) = kmax
  induction kmax with
  | zero => rfl
  | succ k ih =>
    unfold arrFind
    cases hc : arrCheckAt s (k + 1) with
    | some r => exact absurd (arrCheckAt_mem hc) h
    | none => exact ih

theorem charStarTail_star {t : Str} (h : charStarTail t = true) : '*' ∈ t := by
  unfold charStarTail at h
  by_cases hp : (str "char").isPrefixOf t
  · rw [if_pos hp] at h
    cases hd : (t.drop 4).dropWhile isWs with
    | nil => rw [hd] at h; exact absurd h (by simp)
    | cons c rest =>
      rw [hd] at h
      have hc : c = '*' := by
        by_cases hc : c = '*'
        · exact hc
        · simp [hc] at h
      have h1 : c ∈ (t.drop 4).dropWhile isWs := by
        rw [hd]; exact List.mem_cons_self _ _
      have h2 : c ∈ t.drop 4 := List.dropWhile_subset _ h1
      rw [← hc]
      exact List.drop_subset _ _ h2
  · rw [if_neg hp] at h
    exact absurd h (by simp)

theorem charStarTest_star {s : Str} (h : charStarTest s = true) : '*' ∈ s := by
  unfold charStarTest at h
  have hsub : ∀ u, '*' ∈ (u : Str) → u <:+ s.dropWhile isWs → '*' ∈ s := by
    intro u hu hsuf
    exact List.dropWhile_subset _ (hsuf.subset hu)
  rcases Bool.or_eq_true_iff.mp h with h1 | h1
  · by_cases hp : (str "const").isPrefixOf (s.dropWhile isWs)
    · rw [if_pos hp] at h1
      by_cases hw : (((s.dropWhile isWs).drop 5).takeWhile isWs).length = 0
      · simp [hw] at h1
      · rw [if_neg hw] at h1
        exact hsub _ (charStarTail_star h1) (List.drop_suffix _ _)
    · rw [if_neg hp] at h1
      exact absurd h1 (by simp)
  · exact hsub _ (charStarTail_star h1) (List.suffix_refl _)

theorem dropWhile_id_of_all {p : Char → Bool} {s : Str}
    (h : ∀ c ∈ s, p c = false) : s.dropWhile p = s := by
  cases s with
  | nil => rfl
  | cons c rest => simp [List.dropWhile_cons, h c (by simp)]

theorem pstrip_id {s : Str} (h : wsFree s = true) : pstrip s = s := by
  unfold pstrip
  have h1 : ∀ c ∈ s, isWs c = false := by
    intro c hc
    simpa using (List.all_eq_true.mp h) c hc
  rw [dropWhile_id_of_all h1,
    dropWhile_id_of_all (fun c hc => h1 c (List.mem_reverse.mp hc)),
    List.reverse_reverse]

theorem loopF_nomatch (tt : Str → Option Str) (mtch : Str → Option (Str × Str))
    (fuel : Nat) (s : Str) (h : mtch s = none) :
    loopF tt mtch fuel s = some s := by
  cases fuel <;> simp [loopF, h]

theorem vrPrefix_colon {s : Str} (h : (str "vr::").isPrefixOf s = true) :
    ':' ∈ s := by
  have hp : (str "vr::") <+: s := List.isPrefixOf_iff_prefix.mp h
  exact hp.subset (by decide)

theorem plainChar_facts {s : Str} (h : s.all plainChar = true) :
    wsFree s = true ∧ '*' ∉ s ∧ '&' ∉ s ∧ '[' ∉ s ∧ ':' ∉ s := by
  have hall := List.all_eq_true.mp h
  refine ⟨List.all_eq_true.mpr (fun c hc => ?_), fun hm => ?_, fun hm => ?_,
    fun hm => ?_, fun hm => ?_⟩
  · have := hall c hc
    unfold plainChar at this
    simp only [Bool.and_eq_true] at this
    simpa using this.1.1.1.1
  all_goals
    have := hall _ hm
  · unfold plainChar at this; simp at this
  · unfold plainChar at this; simp at this
  · unfold plainChar at this; simp at this
  · unfold plainChar at this; simp at this

theorem fixOk_parts {s : Str} (h : fixOk s = true) :
    s.all plainChar = true ∧ ¬ (str "_t") <:+: s ∧ ¬ (str "VR_") <:+: s
      ∧ ¬ (str "bool") <:+: s ∧ ¬ (str "ptr") <:+: s
      ∧ s ≠ str "unsigned" ∧ s ≠ str "void" ∧ s ≠ str "POINTER(None)"
      ∧ s ≠ str "None" ∧ cPrefixTest s = false := by
  unfold fixOk at h
  simp only [Bool.and_eq_true, Bool.not_eq_true', decide_eq_false_iff_not,
    beq_eq_false_iff_ne, ne_eq] at h
  exact ⟨h.1.1.1.1.1.1.1.1.1, h.1.1.1.1.1.1.1.1.2, h.1.1.1.1.1.1.1.2,
    h.1.1.1.1.1.1.2, h.1.1.1.1.1.2, h.1.1.1.1.2, h.1.1.1.2, h.1.1.2,
    h.1.2, h.2⟩

theorem preprocess_fix {s : Str} (h : fixOk s = true) : preprocess s = s := by
  rcases fixOk_parts h with ⟨hpc, hnt, hnvr, _, _, hnu, _, _, _, hncp⟩
  rcases plainChar_facts hpc with ⟨hws, hstar, _, _, _⟩
  have e1 : subG mConst1 none s = s := subG_id _ _ _ (mConst1_none_wsFree hws)
  have e2 : subG mConst2 none s = s := subG_id _ _ _ (mConst2_none_wsFree hws)
  have e3 : subG (mKw (str "struct")) none s = s :=
    subG_id _ _ _ (mKw_none_wsFree _ hws)
  have e4 : subG (mKw (str "enum")) none s = s :=
    subG_id _ _ _ (mKw_none_wsFree _ hws)
  have e5 : subG (mKw (str "union")) none s = s :=
    subG_id _ _ _ (mKw_none_wsFree _ hws)
  have e6 : subG (mWidth (str "8")) none s = s :=
    subG_id _ _ _ (mWidth_none _ hnt)
  have e7 : subG (mWidth (str "16")) none s = s :=
    subG_id _ _ _ (mWidth_none _ hnt)
  have e8 : subG (mWidth (str "32")) none s = s :=
    subG_id _ _ _ (mWidth_none _ hnt)
  have e9 : subG (mWidth (str "64")) none s = s :=
    subG_id _ _ _ (mWidth_none _ hnt)
  have e10 : subG mUnsigned none s = s := subG_id _ _ _ (mUnsigned_none_wsFree hws)
  have e11 : subG mLongLong none s = s := subG_id _ _ _ (mLongLong_none_wsFree hws)
  have e12 : subG mVR none s = s := subG_id _ _ _ (mVR_none hnvr)
  have hcs : charStarTest s = false := by
    by_cases hcs : charStarTest s
    · exact absurd (charStarTest_star hcs) hstar
    · simpa using hcs
  simp only [preprocess, pstrip_id hws, e1, e2, e3, e4, e5, e6, e7, e8, e9,
    e10, e11, e12, if_neg hnu, hcs, hncp, Bool.false_eq_true, if_false]

theorem postprocess_fix {s : Str} (h : fixOk s = true) : postprocess s = s := by
  rcases fixOk_parts h with ⟨hpc, _, _, hnbool, _, _, hnv, hnpn, _, _⟩
  rcases plainChar_facts hpc with ⟨_, _, _, _, hcolon⟩
  have e1 : subG mBool none s = s := subG_id _ _ _ (mBool_none hnbool)
  have hvr : (str "vr::").isPrefixOf s = false := by
    by_cases hvr : (str "vr::").isPrefixOf s
    · exact absurd (vrPrefix_colon hvr) hcolon
    · exact Bool.not_eq_true _ ▸ (by simpa [List.isPrefixOf_iff_prefix] using hvr)
  simp only [postprocess, if_neg hnv, if_neg hnpn, e1, hvr,
    Bool.false_eq_true, if_false]

/-- A `fixOk` string is a fixed point of the full translator, at any
positive fuel and either bracket mode. -/
theorem ttCore_fix {s : Str} (h : fixOk s = true) (fuel : Nat) (b : Bool) :
    ttCore (fuel + 1) b s = some s := by
  rcases fixOk_parts h with ⟨hpc, _, _, _, hnptr, _, _, _, _, _⟩
  rcases plainChar_facts hpc with ⟨_, hstar, hamp, hbr, _⟩
  simp only [ttCore, preprocess_fix h,
    loopF_nomatch _ _ _ _ (matchStar_none hstar hamp),
    loopF_nomatch _ _ _ _ (matchPtr_none hnptr),
    postprocess_fix h, matchArr_none hbr]

theorem prefix_singleton {α : Type} {p : List α} {x : α} (h : p <+: [x]) :
    p = [] ∨ p = [x] := by
  rcases p with _ | ⟨a, t⟩
  · exact Or.inl rfl
  · rcases h with ⟨u, hu⟩
    right
    cases t with
    | nil =>
      cases u <;> simp_all
    | cons b t2 => simp at hu

/-- No trigger pattern crosses the `POINTER(` ... `)` wrapper: a pattern
without parentheses, of length at least 2, is an infix of
`POINTER(X)` only if it is an infix of `X`. -/
theorem noInfix_wrap {pat X : Str} (hlen : 2 ≤ pat.length)
    (hA : ¬ pat <:+: str "POINTER(")
    (hpo : '(' ∉ pat) (hpc : ')' ∉ pat) (hX : ¬ pat <:+: X) :
    ¬ pat <:+: (str "POINTER(" ++ X ++ [')']) := by
  intro h
  rw [List.append_assoc] at h
  rcases infix_append_cases h with h1 | h1 | ⟨p1, p2, hp, hn1, _, hs, hpre⟩
  · exact hA h1
  · rcases infix_append_cases h1 with h2 | h2 | ⟨q1, q2, hq, _, hqn2, _, hqpre⟩
    · exact hX h2
    · have := h2.length_le
      simp at this
      omega
    · rcases prefix_singleton hqpre with h3 | h3
      · exact hqn2 h3
      · apply hpc
        rw [hq, h3]
        simp
  · apply hpo
    have hl : p1.getLast? = some '(' := by
      rcases hs with ⟨w, hw⟩
      have h4 := List.getLast?_append_of_ne_nil w hn1
      rw [hw] at h4
      rw [← h4]
      rfl
    rw [hp]
    exact List.mem_append_left _ (List.mem_of_mem_getLast? hl)

theorem isPrefixOf_cons_head {x : Char} {xs s : Str}
    (h : (x :: xs).isPrefixOf s = true) : s.head? = some x := by
  cases s with
  | nil => simp [List.isPrefixOf] at h
  | cons b bs =>
    simp only [List.isPrefixOf, Bool.and_eq_true, beq_iff_eq] at h
    rw [h.1]
    rfl

theorem cPrefixTest_false_of_headP {s : Str} (h : s.head? = some 'P') :
    cPrefixTest s = false := by
  by_contra h'
  have h2 : cPrefixTest s = true := by
    cases hcp : cPrefixTest s
    · exact absurd hcp h'
    · rfl
  unfold cPrefixTest at h2
  rw [List.any_eq_true] at h2
  rcases h2 with ⟨p, hp, hpre⟩
  simp only [List.mem_cons, List.mem_singleton, List.not_mem_nil, or_false]
    at hp
  rcases hp with rfl | rfl | rfl | rfl | rfl | rfl | rfl | rfl | rfl | rfl
  all_goals
    have h3 := isPrefixOf_cons_head hpre
  all_goals rw [h] at h3
  all_goals exact absurd h3 (by decide)

theorem wrap_head (X : Str) :
    (str "POINTER(" ++ X ++ [')']).head? = some 'P' := rfl

/-- `fixOk` is preserved by wrapping in one `POINTER(...)` level. -/
theorem fixOk_wrap {X : Str} (h : fixOk X = true) :
    fixOk (str "POINTER(" ++ X ++ [')']) = true := by
  rcases fixOk_parts h with ⟨hpc, hnt, hnvr, hnbool, hnptr, _, _, _, hnn, _⟩
  have hchars : (str "POINTER(" ++ X ++ [')']).all plainChar = true := by
    simp only [List.all_append, Bool.and_eq_true]
    exact ⟨⟨by decide, hpc⟩, by decide⟩
  have ht : ¬ (str "_t") <:+: (str "POINTER(" ++ X ++ [')']) :=
    noInfix_wrap (by decide) (by decide) (by decide) (by decide) hnt
  have hvr : ¬ (str "VR_") <:+: (str "POINTER(" ++ X ++ [')']) :=
    noInfix_wrap (by decide) (by decide) (by decide) (by decide) hnvr
  have hbool : ¬ (str "bool") <:+: (str "POINTER(" ++ X ++ [')']) :=
    noInfix_wrap (by decide) (by decide) (by decide) (by decide) hnbool
  have hptr : ¬ (str "ptr") <:+: (str "POINTER(" ++ X ++ [')']) :=
    noInfix_wrap (by decide) (by decide) (by decide) (by decide) hnptr
  have hhead := wrap_head X
  have hne : ∀ t : Str, t.head? ≠ some 'P' →
      str "POINTER(" ++ X ++ [')'] ≠ t := by
    intro t hth heq
    rw [heq] at hhead
    exact hth hhead
  have hpn : str "POINTER(" ++ X ++ [')'] ≠ str "POINTER(None)" := by
    intro heq
    apply hnn
    have heq2 : str "POINTER(" ++ (X ++ [')'])
        = str "POINTER(" ++ (str "None" ++ [')']) := by
      rw [← List.append_assoc, heq]
      rfl
    have heq3 : X ++ [')'] = str "None" ++ [')'] :=
      List.append_cancel_left heq2
    exact List.append_cancel_right heq3
  have hcp : cPrefixTest (str "POINTER(" ++ X ++ [')']) = false :=
    cPrefixTest_false_of_headP hhead
  unfold fixOk
  simp only [Bool.and_eq_true, Bool.not_eq_true', decide_eq_false_iff_not,
    beq_eq_false_iff_ne, ne_eq]
  exact ⟨⟨⟨⟨⟨⟨⟨⟨⟨hchars, ht⟩, hvr⟩, hbool⟩, hptr⟩,
    hne _ (by decide)⟩, hne _ (by decide)⟩, hpn⟩, hne _ (by decide)⟩, hcp⟩

theorem fixOk_nest {P : Str} (h : fixOk P = true) :
    ∀ k, fixOk (nestPOINTER k P) = true := by
  intro k
  induction k with
  | zero => exact h
  | succ k ih =>
    have : nestPOINTER (k + 1) P
        = str "POINTER(" ++ nestPOINTER k P ++ [')'] := rfl
    rw [this]
    exact fixOk_wrap ih

theorem noInfix_stars {pat P : Str} (m : Nat) (hpat : pat ≠ [])
    (hstar : '*' ∉ pat) (hP : ¬ pat <:+: P) :
    ¬ pat <:+: (P ++ stars m) := by
  intro h
  rcases infix_append_cases h with h1 | h1 | ⟨p1, p2, hp, _, hn2, _, hpre⟩
  · exact hP h1
  · rcases List.exists_mem_of_ne_nil pat hpat with ⟨c, hc⟩
    have := List.eq_of_mem_replicate (h1.subset hc)
    rw [this] at hc
    exact hstar hc
  · rcases List.exists_mem_of_ne_nil p2 hn2 with ⟨c, hc⟩
    have hcs := List.eq_of_mem_replicate (hpre.subset hc)
    apply hstar
    rw [hp, ← hcs]
    exact List.mem_append_right _ hc

theorem wsFree_append_stars {P : Str} (m : Nat) (h : wsFree P = true) :
    wsFree (P ++ stars m) = true := by
  unfold wsFree at *
  rw [List.all_append, h]
  simp only [Bool.true_and]
  apply List.all_eq_true.mpr
  intro c hc
  rw [List.eq_of_mem_replicate hc]
  decide

theorem prefix_of_append_stars {pat P : Str} {m : Nat} (hstar : '*' ∉ pat)
    (h : pat <+: P ++ stars m) : pat <+: P := by
  rcases prefix_append_cases h with h1 | ⟨p2, hp, h2⟩
  · exact h1
  · cases p2 with
    | nil => rw [hp, List.append_nil]
    | cons c t =>
      exfalso
      apply hstar
      have hc : c ∈ stars m := h2.subset (List.mem_cons_self _ _)
      rw [hp, List.eq_of_mem_replicate hc]
      exact List.mem_append_right _ (List.mem_cons_self _ _)

theorem cPrefixTest_append_stars {P : Str} (m : Nat)
    (h : cPrefixTest P = false) : cPrefixTest (P ++ stars m) = false := by
  by_contra h'
  have h2 : cPrefixTest (P ++ stars m) = true := by
    cases hcp : cPrefixTest (P ++ stars m)
    · exact absurd hcp h'
    · rfl
  unfold cPrefixTest at h2
  rw [List.any_eq_true] at h2
  rcases h2 with ⟨p, hp, hpre⟩
  have hps : p <+: P := prefix_of_append_stars
    (by
      simp only [List.mem_cons, List.mem_singleton, List.not_mem_nil, or_false]
        at hp
      rcases hp with rfl | rfl | rfl | rfl | rfl | rfl | rfl | rfl | rfl | rfl
        <;> decide)
    (List.isPrefixOf_iff_prefix.mp hpre)
  have h3 : cPrefixTest P = true := by
    unfold cPrefixTest
    rw [List.any_eq_true]
    exact ⟨p, hp, by rw [List.isPrefixOf_iff_prefix]; exact hps⟩
  rw [h] at h3
  exact absurd h3 (by simp)

theorem charStarTest_append_stars {P : Str} (m : Nat) (hws : wsFree P = true)
    (hcp : cPrefixTest P = false) :
    charStarTest (P ++ stars m) = false := by
  have hwsall : wsFree (P ++ stars m) = true := wsFree_append_stars m hws
  have hdw : (P ++ stars m).dropWhile isWs = P ++ stars m :=
    dropWhile_id_of_all (fun c hc => by
      simpa using (List.all_eq_true.mp hwsall) c hc)
  have hchar : (str "char").isPrefixOf (P ++ stars m) = false := by
    cases hch : (str "char").isPrefixOf (P ++ stars m) with
    | false => rfl
    | true =>
      exfalso
      have hps : (str "char") <+: P := prefix_of_append_stars (by decide)
        (List.isPrefixOf_iff_prefix.mp hch)
      have h3 : cPrefixTest P = true := by
        unfold cPrefixTest
        rw [List.any_eq_true]
        refine ⟨str "char", by simp, ?_⟩
        rw [List.isPrefixOf_iff_prefix]
        exact hps
      rw [hcp] at h3
      exact absurd h3 (by simp)
  have hconst : ∀ t : Str, t <:+ (P ++ stars m) →
      ((t.drop 5).takeWhile isWs).length = 0 := by
    intro t ht
    rw [takeWhile_ws_nil _ (fun c hc =>
      wsFree_suffix hwsall ht c (List.drop_subset _ t hc))]
    rfl
  unfold charStarTest charStarTail
  simp only [hdw, hchar, hconst (P ++ stars m) (List.suffix_refl _),
    Bool.false_eq_true, if_false, Bool.or_false, if_true]
  by_cases hcn : (str "const").isPrefixOf (P ++ stars m) = true <;>
    simp [hcn]

theorem ne_of_star_mem {a b : Str} (ha : '*' ∈ a) (hb : '*' ∉ b) : a ≠ b := by
  intro h
  rw [h] at ha
  exact hb ha

theorem star_mem_append_stars (P : Str) (m : Nat) (hm : 1 ≤ m) :
    '*' ∈ P ++ stars m :=
  List.mem_append_right P (List.mem_replicate.mpr ⟨by omega, rfl⟩)

theorem preprocess_fix_stars {P : Str} (h : fixOk P = true) (m : Nat) :
    preprocess (P ++ stars m) = P ++ stars m := by
  rcases fixOk_parts h with ⟨hpc, hnt, hnvr, _, _, hnu, _, _, _, hncp⟩
  rcases plainChar_facts hpc with ⟨hws, hstar, _, _, _⟩
  set s := P ++ stars m with hsdef
  have hwsall : wsFree s = true := wsFree_append_stars m hws
  have hnts : ¬ (str "_t") <:+: s := noInfix_stars m (by decide) (by decide)
    (fun hh => hnt hh)
  have hnvrs : ¬ (str "VR_") <:+: s := noInfix_stars m (by decide) (by decide)
    (fun hh => hnvr hh)
  have hnus : s ≠ str "unsigned" := by
    cases m with
    | zero => simpa [hsdef, stars] using hnu
    | succ m =>
      exact ne_of_star_mem (star_mem_append_stars P _ (by omega)) (by decide)
  have e1 : subG mConst1 none s = s := subG_id _ _ _ (mConst1_none_wsFree hwsall)
  have e2 : subG mConst2 none s = s := subG_id _ _ _ (mConst2_none_wsFree hwsall)
  have e3 : subG (mKw (str "struct")) none s = s :=
    subG_id _ _ _ (mKw_none_wsFree _ hwsall)
  have e4 : subG (mKw (str "enum")) none s = s :=
    subG_id _ _ _ (mKw_none_wsFree _ hwsall)
  have e5 : subG (mKw (str "union")) none s = s :=
    subG_id _ _ _ (mKw_none_wsFree _ hwsall)
  have e6 : subG (mWidth (str "8")) none s = s :=
    subG_id _ _ _ (mWidth_none _ hnts)
  have e7 : subG (mWidth (str "16")) none s = s :=
    subG_id _ _ _ (mWidth_none _ hnts)
  have e8 : subG (mWidth (str "32")) none s = s :=
    subG_id _ _ _ (mWidth_none _ hnts)
  have e9 : subG (mWidth (str "64")) none s = s :=
    subG_id _ _ _ (mWidth_none _ hnts)
  have e10 : subG mUnsigned none s = s :=
    subG_id _ _ _ (mUnsigned_none_wsFree hwsall)
  have e11 : subG mLongLong none s = s :=
    subG_id _ _ _ (mLongLong_none_wsFree hwsall)
  have e12 : subG mVR none s = s := subG_id _ _ _ (mVR_none hnvrs)
  have hcs : charStarTest s = false := charStarTest_append_stars m hws hncp
  have hcps : cPrefixTest s = false := cPrefixTest_append_stars m hncp
  have hps : pstrip s = s := pstrip_id hwsall
  simp only [preprocess, hps, e1, e2, e3, e4, e5, e6, e7, e8, e9,
    e10, e11, e12, if_neg hnus, hcs, hcps, Bool.false_eq_true, if_false]

theorem restMatch_nonl {u : Str} (h : '\n' ∉ u) : restMatch u = some u := by
  unfold restMatch
  have h1 : u.takeWhile (fun c => c ≠ '\n') = u := by
    induction u with
    | nil => rfl
    | cons c rest ih =>
      have hc : c ≠ '\n' := fun hh => h (by rw [hh]; exact List.mem_cons_self _ _)
      have ih2 := ih (fun hh => h (List.mem_cons_of_mem _ hh))
      simp [List.takeWhile_cons, hc, ih2]
      intro x hx hh
      exact h (List.mem_cons_of_mem _ (hh ▸ hx))
  rw [h1]
  simp

theorem stars_nonl (m : Nat) : '\n' ∉ stars m := by
  intro hc
  have := List.eq_of_mem_replicate hc
  simp at this

theorem takeWhile_ne_star {P : Str} (m : Nat) (h : '*' ∉ P) :
    (P ++ stars m).takeWhile (fun c => c ≠ '*') = P := by
  have hall : ∀ c ∈ P, (fun c => decide (c ≠ '*')) c = true := by
    intro c hc
    simp only [decide_eq_true_iff]
    intro hh
    rw [hh] at hc
    exact h hc
  show (P ++ stars m).takeWhile (fun c => decide (c ≠ '*')) = P
  rw [takeWhile_append_all _ _ _ hall]
  cases m with
  | zero => simp [stars]
  | succ m =>
    have hst : stars (m + 1) = '*' :: stars m := rfl
    rw [hst]
    simp [List.takeWhile_cons]

theorem starCheckAt_P2 {P : Str} {m : Nat} (hm : 2 ≤ m) :
    starCheckAt (P ++ stars m) P.length = some (P ++ ['*'], stars (m - 2)) := by
  obtain ⟨m2, rfl⟩ : ∃ m2, m = m2 + 2 := ⟨m - 2, by omega⟩
  unfold starCheckAt
  have hdrop : (P ++ stars (m2 + 2)).drop P.length = stars (m2 + 2) :=
    List.drop_left _ _
  rw [hdrop]
  have hst : stars (m2 + 2) = '*' :: '*' :: stars m2 := rfl
  rw [hst]
  have hw : ('*' :: stars m2).takeWhile isWs = [] := by
    simp [List.takeWhile_cons, isWs]
  simp only [hw, List.length_nil, List.drop_zero]
  have hisws : isWs '*' = false := by decide
  rw [hisws]
  simp only [Bool.false_eq_true, if_false, restMatch_nonl (stars_nonl m2)]
  have htake : (P ++ '*' :: '*' :: stars m2).take (P.length + 1)
      = P ++ ['*'] := by
    have h2 : (P ++ '*' :: '*' :: stars m2).take (P.length + 1)
        = P ++ ('*' :: '*' :: stars m2).take 1 := List.take_append 1
    simpa using h2
  simp [htake]

theorem matchStar_stars2 {P : Str} {m : Nat} (hm : 2 ≤ m) (hP : P ≠ [])
    (hstar : '*' ∉ P) :
    matchStar (P ++ stars m) = some (P ++ ['*'], stars (m - 2)) := by
  unfold matchStar
  rw [takeWhile_ne_star m hstar]
  have hlen : (P ++ stars m).length = P.length + m := by
    simp [stars]
  have hmin : min P.length ((P ++ stars m).length - 1) = P.length := by
    rw [hlen]; omega
  rw [hmin]
  obtain ⟨k, hk2⟩ : ∃ k, P.length = k + 1 := by
    cases hp : P with
    | nil => exact absurd hp hP
    | cons a t => exact ⟨t.length, by simp [hp]⟩
  rw [hk2]
  show starFind _ (k + 1) = _
  unfold starFind
  rw [← hk2, starCheckAt_P2 hm]

theorem starCheckAt_P1fail {P : Str} :
    starCheckAt (P ++ stars 1) P.length = none := by
  unfold starCheckAt
  have hdrop : (P ++ stars 1).drop P.length = ['*'] := List.drop_left _ _
  rw [hdrop]
  simp [isWs]

theorem starCheckAt_P1hit {P : Str} (hlen : 1 ≤ P.length)
    (hws : wsFree P = true) :
    starCheckAt (P ++ stars 1) (P.length - 1) = some (P, []) := by
  have hne : P ≠ [] := by
    intro h; rw [h] at hlen; simp at hlen
  obtain ⟨cl, hcl, hclm⟩ := exists_last_drop P hne
  unfold starCheckAt
  have hdrop : (P ++ stars 1).drop (P.length - 1) = cl :: ['*'] := by
    rw [List.drop_append_eq_append_drop, hcl]
    have h0 : P.length - 1 - P.length = 0 := by omega
    rw [h0]
    rfl
  rw [hdrop]
  have hclws : isWs cl = false := by
    have := (List.all_eq_true.mp hws) cl hclm
    simpa using this
  have hrm : restMatch ([] : Str) = some [] := restMatch_nonl (by simp)
  have htake : (P ++ stars 1).take (P.length - 1 + 1) = P := by
    have h1 : P.length - 1 + 1 = P.length := by omega
    rw [h1]
    exact List.take_left _ _
  have hwsst : List.takeWhile isWs ['*'] = [] := by decide
  simp [hclws, hwsst, hrm, htake]

theorem matchStar_stars1 {P : Str} (hlen : 2 ≤ P.length)
    (hstar : '*' ∉ P) (hws : wsFree P = true) :
    matchStar (P ++ stars 1) = some (P, []) := by
  unfold matchStar
  rw [takeWhile_ne_star 1 hstar]
  have hlen1 : (P ++ stars 1).length = P.length + 1 := by
    simp [stars]
  have hmin : min P.length ((P ++ stars 1).length - 1) = P.length := by
    rw [hlen1]; omega
  rw [hmin]
  obtain ⟨k, hk2⟩ : ∃ k, P.length = k + 2 := ⟨P.length - 2, by omega⟩
  rw [hk2]
  show starFind _ (k + 2) = _
  unfold starFind
  have hfail : starCheckAt (P ++ stars 1) (k + 2) = none := by
    rw [← hk2]; exact starCheckAt_P1fail
  rw [hfail]
  show starFind _ (k + 1) = _
  unfold starFind
  have hhit : starCheckAt (P ++ stars 1) (k + 1) = some (P, []) := by
    have h1 : k + 1 = P.length - 1 := by omega
    rw [h1]
    exact starCheckAt_P1hit (by omega) hws
  rw [hhit]

theorem nestPOINTER_add (a b : Nat) (Q : Str) :
    nestPOINTER a (nestPOINTER b Q) = nestPOINTER (a + b) Q := by
  induction a with
  | zero => simp [nestPOINTER]
  | succ a ih =>
    have h1 : a + 1 + b = (a + b) + 1 := by omega
    rw [h1]
    simp only [nestPOINTER, ih]

theorem nestPOINTER_len2 {Q : Str} (h2 : 2 ≤ Q.length) (n : Nat) :
    2 ≤ (nestPOINTER n Q).length := by
  cases n with
  | zero => exact h2
  | succ n =>
    simp only [nestPOINTER, List.length_append]
    have h3 : (str "POINTER(").length = 8 := rfl
    omega

theorem loopF_star1 {Q : Str} (h : fixOk Q = true) (h2 : 2 ≤ Q.length)
    (fuel lfuel : Nat) (hf : 1 ≤ fuel) (hl : 1 ≤ lfuel) :
    loopF (ttCore fuel false) matchStar lfuel (Q ++ stars 1)
      = some (nestPOINTER 1 Q) := by
  obtain ⟨l, rfl⟩ : ∃ l, lfuel = l + 1 := ⟨lfuel - 1, by omega⟩
  obtain ⟨f, rfl⟩ : ∃ f, fuel = f + 1 := ⟨fuel - 1, by omega⟩
  rcases fixOk_parts h with ⟨hpc, _, _, _, _, _, _, _, _, _⟩
  rcases plainChar_facts hpc with ⟨hws, hstar, _, _, _⟩
  have hms : matchStar (Q ++ stars 1) = some (Q, []) :=
    matchStar_stars1 h2 hstar hws
  have htt : ttCore (f + 1) false Q = some Q := ttCore_fix h f false
  have hwrapOk : fixOk (nestPOINTER 1 Q) = true := fixOk_nest h 1
  rcases fixOk_parts hwrapOk with ⟨hpc1, _, _, _, _, _, _, _, _, _⟩
  rcases plainChar_facts hpc1 with ⟨_, hstar1, hamp1, _, _⟩
  have hwrap : ptrWrap Q [] = nestPOINTER 1 Q := rfl
  simp only [loopF, hms, htt, hwrap,
    loopF_nomatch _ _ _ _ (matchStar_none hstar1 hamp1)]

theorem tt_star1 {Q : Str} (h : fixOk Q = true) (h2 : 2 ≤ Q.length)
    (fuel : Nat) (hf : 2 ≤ fuel) (b : Bool) :
    ttCore fuel b (Q ++ stars 1) = some (nestPOINTER 1 Q) := by
  obtain ⟨f, rfl⟩ : ∃ f, fuel = f + 1 := ⟨fuel - 1, by omega⟩
  have hwrapOk : fixOk (nestPOINTER 1 Q) = true := fixOk_nest h 1
  rcases fixOk_parts hwrapOk with ⟨hpc1, _, _, _, hnptr1, _, _, _, _, _⟩
  rcases plainChar_facts hpc1 with ⟨_, _, _, hbr1, _⟩
  simp only [ttCore, preprocess_fix_stars h 1,
    loopF_star1 h h2 f (f + 1) (by omega) (by omega),
    loopF_nomatch _ _ _ _ (matchPtr_none hnptr1),
    postprocess_fix hwrapOk, matchArr_none hbr1]

theorem loopF_stars : ∀ (k : Nat) {Q : Str}, fixOk Q = true → 2 ≤ Q.length →
    ∀ (fuel lfuel : Nat), 1 ≤ fuel → k ≤ fuel → k ≤ lfuel →
      loopF (ttCore fuel false) matchStar lfuel (Q ++ stars k)
        = some (nestPOINTER k Q) := by
  intro k
  induction k using Nat.strong_induction_on with
  | _ k ih =>
    intro Q h h2 fuel lfuel hf1 hkf hkl
    match k, ih, hkf, hkl with
    | 0, _, _, _ =>
      rcases fixOk_parts h with ⟨hpc, _, _, _, _, _, _, _, _, _⟩
      rcases plainChar_facts hpc with ⟨_, hstar, hamp, _, _⟩
      have h0 : Q ++ stars 0 = Q := List.append_nil Q
      rw [h0]
      exact loopF_nomatch _ _ _ _ (matchStar_none hstar hamp)
    | 1, _, _, hkl => exact loopF_star1 h h2 fuel lfuel hf1 hkl
    | (k2 + 2), ih, hkf, hkl =>
      obtain ⟨l, rfl⟩ : ∃ l, lfuel = l + 1 := ⟨lfuel - 1, by omega⟩
      rcases fixOk_parts h with ⟨hpc, _, _, _, _, _, _, _, _, _⟩
      rcases plainChar_facts hpc with ⟨hws, hstar, _, _, _⟩
      have hne : Q ≠ [] := by
        intro hh
        rw [hh] at h2
        simp at h2
      have hms : matchStar (Q ++ stars (k2 + 2))
          = some (Q ++ ['*'], stars k2) :=
        matchStar_stars2 (by omega) hne hstar
      have htt : ttCore fuel false (Q ++ ['*']) = some (nestPOINTER 1 Q) := by
        have h1 : (['*'] : Str) = stars 1 := rfl
        rw [h1]
        exact tt_star1 h h2 fuel (by omega) false
      have hstep : ptrWrap (nestPOINTER 1 Q) (stars k2)
          = nestPOINTER 2 Q ++ stars k2 := by
        have hstr : (str ")") = [')'] := rfl
        simp [ptrWrap, nestPOINTER, List.append_assoc, hstr]
      have hrec : loopF (ttCore fuel false) matchStar l
          (nestPOINTER 2 Q ++ stars k2)
          = some (nestPOINTER k2 (nestPOINTER 2 Q)) :=
        ih k2 (by omega) (fixOk_nest h 2) (nestPOINTER_len2 h2 2) fuel l hf1
          (by omega) (by omega)
      simp only [loopF, hms, htt, hstep, hrec, nestPOINTER_add]

theorem append_stars_ne {P c : Str} (m : Nat) (hc : '*' ∉ c) (h0 : P ≠ c) :
    P ++ stars m ≠ c := by
  cases m with
  | zero =>
    have h1 : stars 0 = ([] : Str) := rfl
    rw [h1, List.append_nil]
    exact h0
  | succ m => exact ne_of_star_mem (star_mem_append_stars P _ (by omega)) hc

theorem charStarTest_false_pre {s : Str} (hws : wsFree s = true)
    (hchar : ¬ (str "char") <+: s) (hconst : ¬ (str "const") <+: s) :
    charStarTest s = false := by
  have hdw : s.dropWhile isWs = s := dropWhile_id_of_all (fun c hc => by
    simpa using (List.all_eq_true.mp hws) c hc)
  have hch : (str "char").isPrefixOf s = false := by
    cases hh : (str "char").isPrefixOf s with
    | false => rfl
    | true => exact absurd (List.isPrefixOf_iff_prefix.mp hh) hchar
  have hcn : (str "const").isPrefixOf s = false := by
    cases hh : (str "const").isPrefixOf s with
    | false => rfl
    | true => exact absurd (List.isPrefixOf_iff_prefix.mp hh) hconst
  unfold charStarTest charStarTail
  simp only [hdw, hch, hcn, Bool.false_eq_true, if_false, Bool.or_false,
    Bool.false_or]

theorem charStarTest_stars_of {t : Str} (m : Nat) (hws : wsFree t = true)
    (hchar : ¬ (str "char") <+: t) (hconst : ¬ (str "const") <+: t) :
    charStarTest (t ++ stars m) = false :=
  charStarTest_false_pre (wsFree_append_stars m hws)
    (fun h => hchar (prefix_of_append_stars (by decide) h))
    (fun h => hconst (prefix_of_append_stars (by decide) h))

theorem cPrefixTest_stars_of {t : Str} (m : Nat) (h : cPrefixTest t = true) :
    cPrefixTest (t ++ stars m) = true := by
  unfold cPrefixTest at *
  rw [List.any_eq_true] at *
  rcases h with ⟨p, hp, hpre⟩
  exact ⟨p, hp, List.isPrefixOf_iff_prefix.mpr
    ((List.isPrefixOf_iff_prefix.mp hpre).trans (List.prefix_append _ _))⟩

theorem preprocess_base_stars {t : Str} (m : Nat)
    (hws : wsFree t = true)
    (hnt : ¬ (str "_t") <:+: t)
    (hnvr2 : ¬ (str "VR_") <:+: ('c' :: '_' :: t))
    (hnu : t ≠ str "unsigned")
    (hcst : charStarTest (t ++ stars m) = false)
    (hcp : cPrefixTest (t ++ stars m) = true) :
    preprocess (t ++ stars m) = ('c' :: '_' :: t) ++ stars m := by
  set s := t ++ stars m with hsdef
  have hwsall : wsFree s = true := wsFree_append_stars m hws
  have hnts : ¬ (str "_t") <:+: s := noInfix_stars m (by decide) (by decide) hnt
  have hnus : s ≠ str "unsigned" := append_stars_ne m (by decide) hnu
  have e1 : subG mConst1 none s = s := subG_id _ _ _ (mConst1_none_wsFree hwsall)
  have e2 : subG mConst2 none s = s := subG_id _ _ _ (mConst2_none_wsFree hwsall)
  have e3 : subG (mKw (str "struct")) none s = s :=
    subG_id _ _ _ (mKw_none_wsFree _ hwsall)
  have e4 : subG (mKw (str "enum")) none s = s :=
    subG_id _ _ _ (mKw_none_wsFree _ hwsall)
  have e5 : subG (mKw (str "union")) none s = s :=
    subG_id _ _ _ (mKw_none_wsFree _ hwsall)
  have e6 : subG (mWidth (str "8")) none s = s :=
    subG_id _ _ _ (mWidth_none _ hnts)
  have e7 : subG (mWidth (str "16")) none s = s :=
    subG_id _ _ _ (mWidth_none _ hnts)
  have e8 : subG (mWidth (str "32")) none s = s :=
    subG_id _ _ _ (mWidth_none _ hnts)
  have e9 : subG (mWidth (str "64")) none s = s :=
    subG_id _ _ _ (mWidth_none _ hnts)
  have e10 : subG mUnsigned none s = s :=
    subG_id _ _ _ (mUnsigned_none_wsFree hwsall)
  have e11 : subG mLongLong none s = s :=
    subG_id _ _ _ (mLongLong_none_wsFree hwsall)
  have hcons : ('c' :: '_' :: s) = ('c' :: '_' :: t) ++ stars m := by
    rw [hsdef]
    rfl
  have e12 : subG mVR none (('c' :: '_' :: t) ++ stars m)
      = ('c' :: '_' :: t) ++ stars m :=
    subG_id _ _ _ (mVR_none (noInfix_stars m (by decide) (by decide) hnvr2))
  have hps : pstrip s = s := pstrip_id hwsall
  simp only [preprocess, hps, e1, e2, e3, e4, e5, e6, e7, e8, e9,
    e10, e11, if_neg hnus, hcst, hcp, Bool.false_eq_true, if_false, if_true,
    e12, hcons]

theorem charStarTest_char_stars (m : Nat) (hm : m ≠ 1) :
    charStarTest (str "char" ++ stars m) = false := by
  set s := str "char" ++ stars m with hsdef
  have hwsall : wsFree s = true := wsFree_append_stars m (by decide)
  have hdw : s.dropWhile isWs = s := dropWhile_id_of_all (fun c hc => by
    simpa using (List.all_eq_true.mp hwsall) c hc)
  have hcn : (str "const").isPrefixOf s = false := by
    cases hh : (str "const").isPrefixOf s with
    | false => rfl
    | true =>
      exfalso
      have h1 : (str "const") <+: str "char" :=
        prefix_of_append_stars (by decide) (List.isPrefixOf_iff_prefix.mp hh)
      revert h1
      decide
  have hch : (str "char").isPrefixOf s = true := by
    rw [List.isPrefixOf_iff_prefix]
    exact ⟨stars m, rfl⟩
  have hdrop4 : s.drop 4 = stars m := by
    rw [hsdef]
    exact List.drop_left (str "char") (stars m)
  have hdw4 : (stars m).dropWhile isWs = stars m :=
    dropWhile_id_of_all (fun c hc => by
      rw [List.eq_of_mem_replicate hc]; rfl)
  unfold charStarTest charStarTail
  simp only [hdw, hcn, hch, hdrop4, hdw4, Bool.false_eq_true, if_false,
    if_true, Bool.false_or]
  match m, hm with
  | 0, _ => rfl
  | (m2 + 2), _ =>
    have hst : stars (m2 + 2) = '*' :: '*' :: stars m2 := rfl
    rw [hst]
    simp [List.all_cons, isWs]

theorem mw_ge_stars (t : Str) (N : Nat) : N ≤ mw (t ++ stars N) := by
  unfold mw
  have h1 : (stars N).count '*' = N := by
    simp [stars, List.count_replicate]
  have h2 : (t ++ stars N).count '*' = t.count '*' + N := by
    rw [List.count_append, h1]
  omega

theorem translate_base_stars {t : Str} (N : Nat) (hN : 1 ≤ N)
    (hpre : preprocess (t ++ stars N) = ('c' :: '_' :: t) ++ stars N)
    (hfix : fixOk ('c' :: '_' :: t) = true) :
    translate_type (t ++ stars N) = nestPOINTER N ('c' :: '_' :: t) := by
  have hlen : 2 ≤ ('c' :: '_' :: t).length := by simp
  have hmw : N ≤ mw (t ++ stars N) := mw_ge_stars t N
  obtain ⟨f, hf⟩ : ∃ f, mw (t ++ stars N) = f := ⟨_, rfl⟩
  rw [hf] at hmw
  have hnest : fixOk (nestPOINTER N ('c' :: '_' :: t)) = true :=
    fixOk_nest hfix N
  rcases fixOk_parts hnest with ⟨hpcn, _, _, _, hnptrn, _, _, _, _, _⟩
  rcases plainChar_facts hpcn with ⟨_, _, _, hbrn, _⟩
  have hcore : ttCore (f + 1) false (t ++ stars N)
      = some (nestPOINTER N ('c' :: '_' :: t)) := by
    simp only [ttCore, hpre,
      loopF_stars N hfix hlen f (f + 1) (by omega) (by omega) (by omega),
      loopF_nomatch _ _ _ _ (matchPtr_none hnptrn),
      postprocess_fix hnest, matchArr_none hbrn]
  unfold translate_type
  rw [hf, hcore]
  rfl

/-- C2, counterexample part: `char*` does not become a nested pointer wrapper
around the translated base — the `char *` special case rewrites it to the
flat string type `c_char_p` instead of `POINTER(c_char)`. -/
theorem c2_pointer_chain_counterexample :
    translate_type (str "char" ++ stars 1) = str "c_char_p"
      ∧ str "c_char_p" ≠ nestPOINTER 1 (translate_type (str "char")) :=
  ⟨by decide, by decide⟩

/-- C2, amended: for every primitive base spelling `t` and every `N`, except
the special-cased pair `t = "char", N = 1`, the translation of `t` followed
by `N` trailing `*` characters is `N` nested `POINTER(...)` wrappers around
the translation of `t`. -/
theorem c2_pointer_chain_amended (t : Str)
    (ht : t ∈ [str "int", str "float", str "double", str "char",
      str "short", str "long"])
    (N : Nat) (hN : ¬(t = str "char" ∧ N = 1)) :
    translate_type (t ++ stars N) = nestPOINTER N (translate_type t) := by
  simp only [List.mem_cons, List.not_mem_nil, or_false] at ht
  rcases ht with rfl | rfl | rfl | rfl | rfl | rfl
  · cases N with
    | zero =>
      have h0 : stars 0 = ([] : Str) := rfl
      rw [h0, List.append_nil]
      rfl
    | succ n =>
      have hb : translate_type (str "int") = str "c_int" := by decide
      rw [hb]
      exact translate_base_stars (n + 1) (by omega)
        (preprocess_base_stars (n + 1) (by decide) (by decide) (by decide)
          (by decide)
          (charStarTest_stars_of (n + 1) (by decide) (by decide) (by decide))
          (cPrefixTest_stars_of (n + 1) (by decide)))
        (by decide)
  · cases N with
    | zero =>
      have h0 : stars 0 = ([] : Str) := rfl
      rw [h0, List.append_nil]
      rfl
    | succ n =>
      have hb : translate_type (str "float") = str "c_float" := by decide
      rw [hb]
      exact translate_base_stars (n + 1) (by omega)
        (preprocess_base_stars (n + 1) (by decide) (by decide) (by decide)
          (by decide)
          (charStarTest_stars_of (n + 1) (by decide) (by decide) (by decide))
          (cPrefixTest_stars_of (n + 1) (by decide)))
        (by decide)
  · cases N with
    | zero =>
      have h0 : stars 0 = ([] : Str) := rfl
      rw [h0, List.append_nil]
      rfl
    | succ n =>
      have hb : translate_type (str "double") = str "c_double" := by decide
      rw [hb]
      exact translate_base_stars (n + 1) (by omega)
        (preprocess_base_stars (n + 1) (by decide) (by decide) (by decide)
          (by decide)
          (charStarTest_stars_of (n + 1) (by decide) (by decide) (by decide))
          (cPrefixTest_stars_of (n + 1) (by decide)))
        (by decide)
  · cases N with
    | zero =>
      have h0 : stars 0 = ([] : Str) := rfl
      rw [h0, List.append_nil]
      rfl
    | succ n =>
      cases n with
      | zero => exact absurd ⟨rfl, rfl⟩ hN
      | succ n2 =>
        have hb : translate_type (str "char") = str "c_char" := by decide
        rw [hb]
        exact translate_base_stars (n2 + 2) (by omega)
          (preprocess_base_stars (n2 + 2) (by decide) (by decide) (by decide)
            (by decide)
            (charStarTest_char_stars (n2 + 2) (by omega))
            (cPrefixTest_stars_of (n2 + 2) (by decide)))
          (by decide)
  · cases N with
    | zero =>
      have h0 : stars 0 = ([] : Str) := rfl
      rw [h0, List.append_nil]
      rfl
    | succ n =>
      have hb : translate_type (str "short") = str "c_short" := by decide
      rw [hb]
      exact translate_base_stars (n + 1) (by omega)
        (preprocess_base_stars (n + 1) (by decide) (by decide) (by decide)
          (by decide)
          (charStarTest_stars_of (n + 1) (by decide) (by decide) (by decide))
          (cPrefixTest_stars_of (n + 1) (by decide)))
        (by decide)
  · cases N with
    | zero =>
      have h0 : stars 0 = ([] : Str) := rfl
      rw [h0, List.append_nil]
      rfl
    | succ n =>
      have hb : translate_type (str "long") = str "c_long" := by decide
      rw [hb]
      exact translate_base_stars (n + 1) (by omega)
        (preprocess_base_stars (n + 1) (by decide) (by decide) (by decide)
          (by decide)
          (charStarTest_stars_of (n + 1) (by decide) (by decide) (by decide))
          (cPrefixTest_stars_of (n + 1) (by decide)))
        (by decide)

/-- Witness for the amended C2 theorem at `t = "int"`, `N = 2`:
`int**` translates to `POINTER(POINTER(c_int))`. -/
theorem c2_pointer_chain_amended_witness :
    translate_type (str "int" ++ stars 2)
      = nestPOINTER 2 (translate_type (str "int")) :=
  c2_pointer_chain_amended (str "int") (by simp) 2 (by decide)

/-- C4, amended: the translator is idempotent on its identifier-shaped
outputs: every string satisfying the syntactic fixed-point condition
`fixOk` — in particular every translated primitive — wrapped in any number
of nested `POINTER(...)` layers is left unchanged by a second translation.
(Array outputs such as `c_float * 3` are not fixed points, see the
counterexample.) -/
theorem c4_idempotent_amended {s : Str} (h : fixOk s = true) (N : Nat) :
    translate_type (nestPOINTER N s) = nestPOINTER N s := by
  have hnest : fixOk (nestPOINTER N s) = true := fixOk_nest h N
  unfold translate_type
  obtain ⟨f, hf⟩ : ∃ f, mw (nestPOINTER N s) = f := ⟨_, rfl⟩
  rw [hf, ttCore_fix hnest f false]
  rfl

/-- Witness for the amended C4 theorem at `s = "c_float"`, `N = 3`. -/
theorem c4_idempotent_amended_witness :
    fixOk (str "c_float") = true
      ∧ translate_type (nestPOINTER 3 (str "c_float"))
          = nestPOINTER 3 (str "c_float") :=
  ⟨by decide, c4_idempotent_amended (by decide) 3⟩

theorem startsPtr_iff (s : Str) :
    startsPtr s = true ↔ ∃ y, s = 'p' :: 't' :: 'r' :: y := by
  unfold startsPtr str
  constructor
  · intro h
    rcases List.isPrefixOf_iff_prefix.mp h with ⟨y, hy⟩
    exact ⟨y, by rw [← hy]; rfl⟩
  · rintro ⟨y, rfl⟩
    rw [List.isPrefixOf_iff_prefix]
    exact ⟨y, rfl⟩

theorem startsPtr_false_of_head {c : Char} (x : Str) (h : c ≠ 'p') :
    startsPtr (c :: x) = false := by
  cases hh : startsPtr (c :: x) with
  | false => rfl
  | true =>
    rcases (startsPtr_iff _).mp hh with ⟨y, hy⟩
    injection hy with h1 _
    exact absurd h1 h

theorem countPtr_nil : countPtr [] = 0 := rfl

theorem countPtr_cons_ne {c : Char} (x : Str) (h : c ≠ 'p') :
    countPtr (c :: x) = countPtr x := by
  rw [countPtr.eq_def]
  split
  · rename_i rest heq
    injection heq with h1 h2
    exact absurd h1 h
  · rename_i a hd tl hcon heq
    injection heq with h1 h2
    rw [h2]
  · rename_i heq
    exact (List.cons_ne_nil _ _ heq).elim

theorem countPtr_cons_p_short (x : Str) (h : ∀ y, x ≠ 't' :: 'r' :: y) :
    countPtr ('p' :: x) = countPtr x := by
  rw [countPtr.eq_def]
  split
  · rename_i rest heq
    injection heq with h1 h2
    exact absurd h2 (h rest)
  · rename_i a hd tl hcon heq
    injection heq with h1 h2
    rw [h2]
  · rename_i heq
    exact (List.cons_ne_nil _ _ heq).elim

theorem countPtr_ptr (y : Str) :
    countPtr ('p' :: 't' :: 'r' :: y) = 1 + countPtr ('t' :: 'r' :: y) := rfl

theorem countPtr_cons (c : Char) (x : Str) :
    countPtr (c :: x)
      = (if startsPtr (c :: x) then 1 else 0) + countPtr x := by
  by_cases hc : c = 'p'
  · subst hc
    by_cases hx : ∃ y, x = 't' :: 'r' :: y
    · rcases hx with ⟨y, rfl⟩
      have h1 : startsPtr ('p' :: 't' :: 'r' :: y) = true :=
        (startsPtr_iff _).mpr ⟨y, rfl⟩
      rw [h1, countPtr_ptr]
      simp
    · push_neg at hx
      have h1 : startsPtr ('p' :: x) = false := by
        cases hh : startsPtr ('p' :: x) with
        | false => rfl
        | true =>
          rcases (startsPtr_iff _).mp hh with ⟨y, hy⟩
          injection hy with _ h2
          exact absurd h2 (hx y)
      rw [h1, countPtr_cons_p_short x hx]
      simp
  · rw [startsPtr_false_of_head x hc, countPtr_cons_ne x hc]
    simp

theorem countPtr_le_cons (c : Char) (x : Str) :
    countPtr x ≤ countPtr (c :: x) := by
  rw [countPtr_cons]
  omega

theorem startsPtr_mono {t : Str} (b : Str) (h : startsPtr t = true) :
    startsPtr (t ++ b) = true := by
  rcases (startsPtr_iff _).mp h with ⟨y, rfl⟩
  exact (startsPtr_iff _).mpr ⟨y ++ b, rfl⟩

theorem countPtr_append_ge (a b : Str) :
    countPtr a + countPtr b ≤ countPtr (a ++ b) := by
  induction a with
  | nil => simp [countPtr_nil]
  | cons c a ih =>
    rw [List.cons_append, countPtr_cons, countPtr_cons]
    have h1 : (if startsPtr (c :: a) then 1 else 0)
        ≤ (if startsPtr (c :: (a ++ b)) then 1 else 0) := by
      by_cases h : startsPtr (c :: a) = true
      · have h2 : startsPtr (c :: (a ++ b)) = true := by
          have := startsPtr_mono b h
          rwa [List.cons_append] at this
        simp [h, h2]
      · simp [h]
    omega

theorem countPtr_append_no_p {a : Str} (b : Str) (h : 'p' ∉ a) :
    countPtr (a ++ b) = countPtr b := by
  induction a with
  | nil => rfl
  | cons c a ih =>
    rw [List.cons_append, countPtr_cons_ne _ (fun hh => h (hh ▸ List.mem_cons_self _ _))]
    exact ih (fun hh => h (List.mem_cons_of_mem _ hh))

theorem countPtr_zero_no_p {a : Str} (h : 'p' ∉ a) : countPtr a = 0 := by
  have := countPtr_append_no_p [] h
  rwa [List.append_nil] at this

theorem sp_append_short {x b : Str} (h : startsPtr (x ++ b) = true)
    (h1 : 1 ≤ x.length) (h2 : x.length ≤ 2) : headTR b = true := by
  rcases (startsPtr_iff _).mp h with ⟨y, hy⟩
  match x, h1, h2 with
  | [c], _, _ =>
    injection hy with e1 e2
    cases b with
    | nil => simp at e2
    | cons d b2 =>
      injection e2 with e3 e4
      rw [e3]
      rfl
  | [c, d], _, _ =>
    injection hy with e1 e2
    injection e2 with e3 e4
    cases b with
    | nil => simp at e4
    | cons e b2 =>
      injection e4 with e5 e6
      rw [e5]
      rfl

theorem sp_append_long {x : Str} (b : Str) (h : 3 ≤ x.length) :
    startsPtr (x ++ b) = startsPtr x := by
  match x, h with
  | c1 :: c2 :: c3 :: t, _ =>
    cases hh : startsPtr (c1 :: c2 :: c3 :: t) with
    | true =>
      have := startsPtr_mono b hh
      simpa using this
    | false =>
      cases hg : startsPtr ((c1 :: c2 :: c3 :: t) ++ b) with
      | false => rfl
      | true =>
        exfalso
        rcases (startsPtr_iff _).mp hg with ⟨y, hy⟩
        injection hy with e1 e2
        injection e2 with e3 e4
        injection e4 with e5 e6
        have : startsPtr (c1 :: c2 :: c3 :: t) = true :=
          (startsPtr_iff _).mpr ⟨t, by rw [e1, e3, e5]⟩
        rw [this] at hh
        exact absurd hh (by simp)

theorem countPtr_append_le_safe {b : Str} (a : Str) (hb : headTR b = false) :
    countPtr (a ++ b) ≤ countPtr a + countPtr b := by
  induction a with
  | nil => simp [countPtr_nil]
  | cons c a ih =>
    rw [List.cons_append, countPtr_cons, countPtr_cons]
    have h1 : (if startsPtr (c :: (a ++ b)) then 1 else 0)
        ≤ (if startsPtr (c :: a) then 1 else 0) := by
      by_cases hl : 2 ≤ a.length
      · have h2 : startsPtr ((c :: a) ++ b) = startsPtr (c :: a) := by
          apply sp_append_long
          simp
          omega
        rw [List.cons_append] at h2
        rw [h2]
      · by_cases hs : startsPtr (c :: (a ++ b)) = true
        · exfalso
          have h3 : startsPtr ((c :: a) ++ b) = true := by
            rwa [List.cons_append]
          have h4 := sp_append_short h3 (by simp) (by simp; omega)
          rw [hb] at h4
          exact absurd h4 (by simp)
        · simp [hs]
    omega

theorem countPtr_append_le2 (a b : Str) :
    countPtr (a ++ b) ≤ countPtr a + countPtr b + min a.length 2 := by
  induction a with
  | nil => simp [countPtr_nil]
  | cons c a ih =>
    rw [List.cons_append, countPtr_cons, countPtr_cons]
    by_cases hl : 2 ≤ a.length
    · have h2 : startsPtr ((c :: a) ++ b) = startsPtr (c :: a) := by
        apply sp_append_long
        simp
        omega
      rw [List.cons_append] at h2
      rw [h2]
      have h3 : min a.length 2 = 2 := by omega
      have h4 : min (a.length + 1) 2 = 2 := by omega
      simp only [List.length_cons, h4]
      omega
    · have h3 : min a.length 2 = a.length := by omega
      have h4 : min (a.length + 1) 2 = a.length + 1 := by omega
      simp only [List.length_cons, h4]
      rw [h3] at ih
      have h5 : (if startsPtr (c :: (a ++ b)) then 1 else 0) ≤ 1 := by
        by_cases hs : startsPtr (c :: (a ++ b)) = true <;> simp [hs]
      omega

theorem mw_append_ge (a b : Str) : mw a + mw b ≤ mw (a ++ b) := by
  unfold mw
  rw [List.count_append, List.count_append, List.count_append]
  have := countPtr_append_ge a b
  omega

theorem mw_prefix_le {a s : Str} (h : a <+: s) : mw a ≤ mw s := by
  rcases h with ⟨t, rfl⟩
  have := mw_append_ge a t
  omega

theorem mw_suffix_le {a s : Str} (h : a <:+ s) : mw a ≤ mw s := by
  rcases h with ⟨t, rfl⟩
  have := mw_append_ge t a
  omega

theorem mw_cons_le (c : Char) (x : Str) : mw x ≤ mw (c :: x) := by
  unfold mw
  rw [List.count_cons, List.count_cons, List.count_cons, countPtr_cons]
  have h1 : (0:Nat) ≤ if ('[' : Char) == c then 1 else 0 := by positivity
  omega

theorem mw_append_le2 (a b : Str) : mw (a ++ b) ≤ mw a + mw b + 2 := by
  unfold mw
  rw [List.count_append, List.count_append, List.count_append]
  have h1 := countPtr_append_le2 a b
  have h2 : min a.length 2 ≤ 2 := by omega
  omega

theorem mw_append_le_safe {b : Str} (a : Str) (hb : headTR b = false) :
    mw (a ++ b) ≤ mw a + mw b := by
  unfold mw
  rw [List.count_append, List.count_append, List.count_append]
  have h1 := countPtr_append_le_safe a hb
  omega

theorem mw_star_cons (x : Str) : mw ('*' :: x) = 1 + mw x := by
  unfold mw
  rw [List.count_cons, List.count_cons, List.count_cons,
    countPtr_cons_ne x (by decide)]
  simp
  omega

theorem mw_amp_cons (x : Str) : mw ('&' :: x) = 1 + mw x := by
  unfold mw
  rw [List.count_cons, List.count_cons, List.count_cons,
    countPtr_cons_ne x (by decide)]
  simp
  omega

theorem mw_bracket_cons (x : Str) : mw ('[' :: x) = 3 + mw x := by
  unfold mw
  rw [List.count_cons, List.count_cons, List.count_cons,
    countPtr_cons_ne x (by decide)]
  simp
  omega

theorem mw_cons_plain {c : Char} (x : Str) (hp : c ≠ 'p') (hb : c ≠ '[')
    (hs : c ≠ '*') (ha : c ≠ '&') : mw (c :: x) = mw x := by
  unfold mw
  rw [List.count_cons, List.count_cons, List.count_cons, countPtr_cons_ne x hp]
  have e1 : (c == '[') = false := by
    simp only [beq_eq_false_iff_ne, ne_eq]
    exact hb
  have e2 : (c == '*') = false := by
    simp only [beq_eq_false_iff_ne, ne_eq]
    exact hs
  have e3 : (c == '&') = false := by
    simp only [beq_eq_false_iff_ne, ne_eq]
    exact ha
  rw [e1, e2, e3]
  simp

theorem headTR_of_not_word {ch : Char} (z : Str) (h : isWord ch = false) :
    headTR (ch :: z) = false := by
  show (decide (ch = 't') || decide (ch = 'r')) = false
  by_cases h1 : ch = 't'
  · rw [h1] at h
    exact absurd h (by decide)
  · by_cases h2 : ch = 'r'
    · rw [h2] at h
      exact absurd h (by decide)
    · simp [h1, h2]

theorem subGF_headTR {m} (hm : ETrail m) :
    ∀ fuel prev s, headTR s = false →
      headTR (subGF m fuel prev s) = false := by
  intro fuel
  induction fuel with
  | zero => intro prev s h; exact h
  | succ fuel ih =>
    intro prev s h
    cases s with
    | nil => rfl
    | cons c rest =>
      cases hm2 : m prev (c :: rest) with
      | none => simp only [subGF, hm2]; exact h
      | some kr =>
        obtain ⟨k, repl⟩ := kr
        rcases hm prev (c :: rest) k repl hm2 with ⟨hrepl, htr⟩
        subst hrepl
        simp only [subGF, hm2, List.nil_append]
        exact ih _ _ htr

theorem subGF_head_struct {m} (hcl : ELead m ∨ NSafe m ∨ ETrail m) :
    ∀ fuel c s, isWord c = true →
      subGF m fuel (some c) s = s
      ∨ subGF m fuel (some c) s = []
      ∨ (∃ d t f2, s = d :: t ∧ fuel = f2 + 1 ∧
          subGF m fuel (some c) s = d :: subGF m f2 (some d) t)
      ∨ headTR (subGF m fuel (some c) s) = false := by
  intro fuel c s hc
  cases fuel with
  | zero => exact Or.inl rfl
  | succ fuel =>
    cases s with
    | nil => exact Or.inr (Or.inl rfl)
    | cons d t =>
      rcases hcl with hel | hns | het
      · have h1 : m (some c) (d :: t) = none := hel c (d :: t) hc
        refine Or.inr (Or.inr (Or.inl ⟨d, t, fuel, rfl, rfl, ?_⟩))
        simp only [subGF, h1]
      · cases hm2 : m (some c) (d :: t) with
        | none =>
          refine Or.inr (Or.inr (Or.inl ⟨d, t, fuel, rfl, rfl, ?_⟩))
          simp only [subGF, hm2]
        | some kr =>
          obtain ⟨k, repl⟩ := kr
          rcases hns _ _ _ _ hm2 with ⟨hne, htr⟩
          refine Or.inr (Or.inr (Or.inr ?_))
          simp only [subGF, hm2]
          cases repl with
          | nil => exact absurd rfl hne
          | cons r0 r1 => exact htr
      · cases hm2 : m (some c) (d :: t) with
        | none =>
          refine Or.inr (Or.inr (Or.inl ⟨d, t, fuel, rfl, rfl, ?_⟩))
          simp only [subGF, hm2]
        | some kr =>
          obtain ⟨k, repl⟩ := kr
          rcases het _ _ _ _ hm2 with ⟨hrepl, htr⟩
          subst hrepl
          refine Or.inr (Or.inr (Or.inr ?_))
          simp only [subGF, hm2, List.nil_append]
          exact subGF_headTR het _ _ _ htr

theorem sp_subGF_le {m} (hcl : ELead m ∨ NSafe m ∨ ETrail m) :
    ∀ fuel c s, startsPtr (c :: subGF m fuel (some c) s) = true →
      startsPtr (c :: s) = true := by
  intro fuel c s h
  rcases (startsPtr_iff _).mp h with ⟨y, hy⟩
  injection hy with hc hout
  subst hc
  rcases subGF_head_struct hcl fuel 'p' s (by decide) with h1 | h1 | h1 | h1
  · rw [h1] at hout
    exact (startsPtr_iff _).mpr ⟨y, by rw [hout]⟩
  · rw [h1] at hout
    exact absurd hout (by simp)
  · rcases h1 with ⟨d, t, f2, rfl, _, hstep⟩
    rw [hstep] at hout
    injection hout with hd hout2
    subst hd
    rcases subGF_head_struct hcl f2 't' t (by decide) with h2 | h2 | h2 | h2
    · rw [h2] at hout2
      exact (startsPtr_iff _).mpr ⟨y, by rw [hout2]⟩
    · rw [h2] at hout2
      exact absurd hout2 (by simp)
    · rcases h2 with ⟨d2, t2, f3, rfl, _, hstep2⟩
      rw [hstep2] at hout2
      injection hout2 with hd2 _
      subst hd2
      exact (startsPtr_iff _).mpr ⟨t2, rfl⟩
    · rw [hout2] at h2
      exact absurd h2 (by simp [headTR])
  · rw [hout] at h1
    exact absurd h1 (by simp [headTR])

theorem countPtr_append_le_left {a : Str} (X : Str)
    (h : 'p' ∉ a.drop (a.length - 2)) :
    countPtr (a ++ X) ≤ countPtr a + countPtr X := by
  induction a with
  | nil => simp [countPtr_nil]
  | cons c a ih =>
    rw [List.cons_append, countPtr_cons, countPtr_cons]
    by_cases hl : 2 ≤ a.length
    · have h2 : startsPtr ((c :: a) ++ X) = startsPtr (c :: a) := by
        apply sp_append_long
        simp
        omega
      rw [List.cons_append] at h2
      rw [h2]
      have h3 : (c :: a).drop ((c :: a).length - 2) = a.drop (a.length - 2) := by
        have h4 : (c :: a).length - 2 = (a.length - 2) + 1 := by
          simp
          omega
        rw [h4, List.drop_succ_cons]
      rw [h3] at h
      have h5 := ih h
      omega
    · have h3 : (c :: a).length - 2 = 0 := by
        simp
        omega
      rw [h3, List.drop_zero] at h
      have h6 : 'p' ∉ a.drop (a.length - 2) :=
        fun hh => h (List.mem_cons_of_mem _ (List.drop_subset _ _ hh))
      have h5 := ih h6
      have h7 : startsPtr (c :: (a ++ X)) = false := by
        cases hh : startsPtr (c :: (a ++ X)) with
        | false => rfl
        | true =>
          exfalso
          rcases (startsPtr_iff _).mp hh with ⟨y, hy⟩
          injection hy with e1 _
          exact h (e1 ▸ List.mem_cons_self _ _)
      rw [h7]
      simp only [Bool.false_eq_true, if_false]
      omega

theorem psafe_of_eq {m} {R : Str}
    (hr : ∀ prev s k repl, m prev s = some (k, repl) → repl = R)
    (h1 : countPtr R = 0) (h2 : 'p' ∉ R.drop (R.length - 2)) : PSafe m :=
  fun prev s k repl h => by rw [hr prev s k repl h]; exact ⟨h1, h2⟩

theorem subGF_countPtr_le {m} (hcl : ELead m ∨ NSafe m ∨ ETrail m)
    (hp : PSafe m) :
    ∀ fuel prev s, countPtr (subGF m fuel prev s) ≤ countPtr s := by
  intro fuel
  induction fuel with
  | zero => intro prev s; exact le_refl _
  | succ fuel ih =>
    intro prev s
    cases s with
    | nil => simp [subGF, countPtr_nil]
    | cons c rest =>
      simp only [subGF]
      cases hm2 : m prev (c :: rest) with
      | none =>
        rw [countPtr_cons, countPtr_cons]
        have h1 := ih (some c) rest
        have h2 : (if startsPtr (c :: subGF m fuel (some c) rest) then 1 else 0)
            ≤ (if startsPtr (c :: rest) then 1 else 0) := by
          by_cases hs : startsPtr (c :: subGF m fuel (some c) rest) = true
          · rw [hs, sp_subGF_le hcl fuel c rest hs]
          · simp [hs]
        omega
      | some kr =>
        obtain ⟨k, repl⟩ := kr
        rcases hp prev (c :: rest) k repl hm2 with ⟨hz, hpf⟩
        show countPtr
            (repl ++ subGF m fuel (some ((c :: rest).getD k c)) (rest.drop k))
          ≤ countPtr (c :: rest)
        have hle := countPtr_append_le_left
          (subGF m fuel (some ((c :: rest).getD k c)) (rest.drop k)) hpf
        rw [hz] at hle
        have h1 := ih (some ((c :: rest).getD k c)) (rest.drop k)
        have h2 : countPtr (rest.drop k) ≤ countPtr rest := by
          have h3 := countPtr_append_ge (rest.take k) (rest.drop k)
          rw [List.take_append_drop] at h3
          omega
        have h4 := countPtr_le_cons c rest
        omega

theorem subGF_count_le {χ : Char} {m} (hf : ReplFree χ m) :
    ∀ fuel prev s, (subGF m fuel prev s).count χ ≤ s.count χ := by
  intro fuel
  induction fuel with
  | zero => intro prev s; exact le_refl _
  | succ fuel ih =>
    intro prev s
    cases s with
    | nil => simp [subGF]
    | cons c rest =>
      simp only [subGF]
      cases hm2 : m prev (c :: rest) with
      | none =>
        rw [List.count_cons, List.count_cons]
        have h1 := ih (some c) rest
        omega
      | some kr =>
        obtain ⟨k, repl⟩ := kr
        have hpf := hf prev (c :: rest) k repl hm2
        rw [List.count_append, List.count_eq_zero.mpr hpf]
        have h1 := ih (some ((c :: rest).getD k c)) (rest.drop k)
        have h2 : (rest.drop k).count χ ≤ rest.count χ := by
          conv_rhs => rw [← List.take_append_drop k rest]
          rw [List.count_append]
          omega
        rw [List.count_cons]
        omega

theorem subG_mw_le {m} (hcl : ELead m ∨ NSafe m ∨ ETrail m)
    (hp : PSafe m) (h1 : ReplFree '*' m) (h2 : ReplFree '&' m)
    (h3 : ReplFree '[' m) (prev : Option Char) (s : Str) :
    mw (subG m prev s) ≤ mw s := by
  unfold subG mw
  have c1 := subGF_count_le h3 s.length prev s
  have c2 := subGF_count_le h1 s.length prev s
  have c3 := subGF_count_le h2 s.length prev s
  have c4 := subGF_countPtr_le hcl hp s.length prev s
  omega

theorem mConst1_elead : ELead mConst1 := by
  intro c s hc
  unfold mConst1
  simp [bdryB, hc]

theorem mKw_elead (kw : Str) : ELead (mKw kw) := by
  intro c s hc
  unfold mKw
  simp [bdryB, hc]

theorem mUnsigned_elead : ELead mUnsigned := by
  intro c s hc
  unfold mUnsigned
  simp [bdryB, hc]

theorem mLongLong_elead : ELead mLongLong := by
  intro c s hc
  unfold mLongLong
  simp [bdryB, hc]

theorem mVR_elead : ELead mVR := by
  intro c s hc
  unfold mVR
  simp [bdryB, hc]

theorem mBool_elead : ELead mBool := by
  intro c s hc
  unfold mBool
  simp [bdryB, hc]

theorem mConst1_repl {prev : Option Char} {s : Str} {k : Nat} {repl : Str}
    (h : mConst1 prev s = some (k, repl)) : repl = [] := by
  simp only [mConst1] at h
  repeat' split at h
  all_goals first
    | exact Option.noConfusion h
    | (simp only [Option.some.injEq, Prod.mk.injEq] at h
       exact h.2.symm)

theorem mConst2_repl {prev : Option Char} {s : Str} {k : Nat} {repl : Str}
    (h : mConst2 prev s = some (k, repl)) : repl = [] := by
  simp only [mConst2] at h
  repeat' split at h
  all_goals first
    | exact Option.noConfusion h
    | (simp only [Option.some.injEq, Prod.mk.injEq] at h
       exact h.2.symm)

theorem mKw_repl (kw : Str) {prev : Option Char} {s : Str} {k : Nat}
    {repl : Str} (h : mKw kw prev s = some (k, repl)) : repl = [] := by
  simp only [mKw] at h
  repeat' split at h
  all_goals first
    | exact Option.noConfusion h
    | (simp only [Option.some.injEq, Prod.mk.injEq] at h
       exact h.2.symm)

theorem mWidth_repl {digits : Str} {prev : Option Char} {s : Str} {k : Nat}
    {repl : Str} (h : mWidth digits prev s = some (k, repl)) :
    repl = digits := by
  simp only [mWidth] at h
  repeat' split at h
  all_goals first
    | exact Option.noConfusion h
    | (simp only [Option.some.injEq, Prod.mk.injEq] at h
       exact h.2.symm)

theorem mUnsigned_repl {prev : Option Char} {s : Str} {k : Nat} {repl : Str}
    (h : mUnsigned prev s = some (k, repl)) : repl = str "u" := by
  simp only [mUnsigned] at h
  repeat' split at h
  all_goals first
    | exact Option.noConfusion h
    | (simp only [Option.some.injEq, Prod.mk.injEq] at h
       exact h.2.symm)

theorem mLongLong_repl {prev : Option Char} {s : Str} {k : Nat} {repl : Str}
    (h : mLongLong prev s = some (k, repl)) : repl = str "longlong" := by
  simp only [mLongLong] at h
  repeat' split at h
  all_goals first
    | exact Option.noConfusion h
    | (simp only [Option.some.injEq, Prod.mk.injEq] at h
       exact h.2.symm)

theorem mVR_repl {prev : Option Char} {s : Str} {k : Nat} {repl : Str}
    (h : mVR prev s = some (k, repl)) : repl = [] := by
  simp only [mVR] at h
  repeat' split at h
  all_goals first
    | exact Option.noConfusion h
    | (simp only [Option.some.injEq, Prod.mk.injEq] at h
       exact h.2.symm)

theorem mBool_repl {prev : Option Char} {s : Str} {k : Nat} {repl : Str}
    (h : mBool prev s = some (k, repl)) : repl = str "openvr_bool" := by
  simp only [mBool] at h
  repeat' split at h
  all_goals first
    | exact Option.noConfusion h
    | (simp only [Option.some.injEq, Prod.mk.injEq] at h
       exact h.2.symm)

theorem mConst2_etrail : ETrail mConst2 := by
  intro prev s k repl h
  refine ⟨mConst2_repl h, ?_⟩
  simp only [mConst2] at h
  split at h
  · exact Option.noConfusion h
  · split at h
    · split at h
      · rename_i heq
        simp only [Option.some.injEq, Prod.mk.injEq] at h
        have hd : List.drop 5 (List.drop (List.takeWhile isWs s).length s)
            = List.drop (k + 1) s := by
          rw [List.drop_drop]
          congr 1
          omega
        rw [← hd, List.head?_eq_none_iff.mp heq]
        rfl
      · rename_i c heq
        split at h
        · exact Option.noConfusion h
        · rename_i hword
          simp only [Option.some.injEq, Prod.mk.injEq] at h
          have hd : List.drop 5 (List.drop (List.takeWhile isWs s).length s)
              = List.drop (k + 1) s := by
            rw [List.drop_drop]
            congr 1
            omega
          cases hdrop : List.drop 5 (List.drop (List.takeWhile isWs s).length s)
            with
          | nil =>
            rw [← hd, hdrop]
            rfl
          | cons a z =>
            rw [hdrop] at heq
            injection heq with ha
            rw [← hd, hdrop, ha]
            exact headTR_of_not_word z (by simpa using hword)
    · exact Option.noConfusion h

theorem replFree_of_eq {m} {R : Str}
    (hr : ∀ prev s k repl, m prev s = some (k, repl) → repl = R)
    {χ : Char} (hχ : χ ∉ R) : ReplFree χ m :=
  fun prev s k repl h => by rw [hr prev s k repl h]; exact hχ

theorem mWidth_nsafe {digits : Str} (h1 : digits ≠ [])
    (h2 : headTR digits = false) : NSafe (mWidth digits) :=
  fun prev s k repl h => by rw [mWidth_repl h]; exact ⟨h1, h2⟩

theorem subG_mConst1_mw (prev : Option Char) (s : Str) :
    mw (subG mConst1 prev s) ≤ mw s := by
  have hr : ∀ prev s k repl, mConst1 prev s = some (k, repl) → repl = [] :=
    fun _ _ _ _ h => mConst1_repl h
  exact subG_mw_le (Or.inl mConst1_elead) (psafe_of_eq hr (by decide) (by simp))
    (replFree_of_eq hr (by simp)) (replFree_of_eq hr (by simp))
    (replFree_of_eq hr (by simp)) prev s

theorem subG_mConst2_mw (prev : Option Char) (s : Str) :
    mw (subG mConst2 prev s) ≤ mw s := by
  have hr : ∀ prev s k repl, mConst2 prev s = some (k, repl) → repl = [] :=
    fun _ _ _ _ h => mConst2_repl h
  exact subG_mw_le (Or.inr (Or.inr mConst2_etrail))
    (psafe_of_eq hr (by decide) (by simp)) (replFree_of_eq hr (by simp))
    (replFree_of_eq hr (by simp)) (replFree_of_eq hr (by simp)) prev s

theorem subG_mKw_mw (kw : Str) (prev : Option Char) (s : Str) :
    mw (subG (mKw kw) prev s) ≤ mw s := by
  have hr : ∀ prev s k repl, mKw kw prev s = some (k, repl) → repl = [] :=
    fun _ _ _ _ h => mKw_repl kw h
  exact subG_mw_le (Or.inl (mKw_elead kw)) (psafe_of_eq hr (by decide) (by simp))
    (replFree_of_eq hr (by simp)) (replFree_of_eq hr (by simp))
    (replFree_of_eq hr (by simp)) prev s

theorem subG_mWidth_mw (digits : Str) (h1 : digits ≠ [])
    (h2 : headTR digits = false) (h3 : 'p' ∉ digits) (h4 : '*' ∉ digits)
    (h5 : '&' ∉ digits) (h6 : '[' ∉ digits) (prev : Option Char) (s : Str) :
    mw (subG (mWidth digits) prev s) ≤ mw s := by
  have hr : ∀ prev s k repl, mWidth digits prev s = some (k, repl)
      → repl = digits := fun _ _ _ _ h => mWidth_repl h
  exact subG_mw_le (Or.inr (Or.inl (mWidth_nsafe h1 h2)))
    (psafe_of_eq hr (countPtr_zero_no_p h3)
      (fun hh => h3 (List.drop_subset _ _ hh)))
    (replFree_of_eq hr h4)
    (replFree_of_eq hr h5) (replFree_of_eq hr h6) prev s

theorem subG_mUnsigned_mw (prev : Option Char) (s : Str) :
    mw (subG mUnsigned prev s) ≤ mw s := by
  have hr : ∀ prev s k repl, mUnsigned prev s = some (k, repl)
      → repl = str "u" := fun _ _ _ _ h => mUnsigned_repl h
  exact subG_mw_le (Or.inl mUnsigned_elead)
    (psafe_of_eq hr (by decide) (by decide))
    (replFree_of_eq hr (by decide)) (replFree_of_eq hr (by decide))
    (replFree_of_eq hr (by decide)) prev s

theorem subG_mLongLong_mw (prev : Option Char) (s : Str) :
    mw (subG mLongLong prev s) ≤ mw s := by
  have hr : ∀ prev s k repl, mLongLong prev s = some (k, repl)
      → repl = str "longlong" := fun _ _ _ _ h => mLongLong_repl h
  exact subG_mw_le (Or.inl mLongLong_elead)
    (psafe_of_eq hr (by decide) (by decide))
    (replFree_of_eq hr (by decide)) (replFree_of_eq hr (by decide))
    (replFree_of_eq hr (by decide)) prev s

theorem subG_mVR_mw (prev : Option Char) (s : Str) :
    mw (subG mVR prev s) ≤ mw s := by
  have hr : ∀ prev s k repl, mVR prev s = some (k, repl) → repl = [] :=
    fun _ _ _ _ h => mVR_repl h
  exact subG_mw_le (Or.inl mVR_elead) (psafe_of_eq hr (by decide) (by simp))
    (replFree_of_eq hr (by simp)) (replFree_of_eq hr (by simp))
    (replFree_of_eq hr (by simp)) prev s

theorem subG_mBool_mw (prev : Option Char) (s : Str) :
    mw (subG mBool prev s) ≤ mw s := by
  have hr : ∀ prev s k repl, mBool prev s = some (k, repl)
      → repl = str "openvr_bool" := fun _ _ _ _ h => mBool_repl h
  exact subG_mw_le (Or.inl mBool_elead)
    (psafe_of_eq hr (by decide) (by decide))
    (replFree_of_eq hr (by decide)) (replFree_of_eq hr (by decide))
    (replFree_of_eq hr (by decide)) prev s

theorem pstrip_mw_le (s : Str) : mw (pstrip s) ≤ mw s := by
  unfold pstrip
  have h1 : (s.dropWhile isWs) <:+ s := List.dropWhile_suffix _
  have h2 : ((s.dropWhile isWs).reverse.dropWhile isWs)
      <:+ (s.dropWhile isWs).reverse := List.dropWhile_suffix _
  have h3 : ((s.dropWhile isWs).reverse.dropWhile isWs).reverse
      <+: s.dropWhile isWs := by
    have h4 := (List.reverse_prefix).mpr h2
    rwa [List.reverse_reverse] at h4
  exact le_trans (mw_prefix_le h3) (mw_suffix_le h1)

theorem ifu_mw_le (x : Str) :
    mw (if x = str "unsigned" then str "unsigned int" else x) ≤ mw x := by
  split_ifs with h
  · rw [h]
    decide
  · exact le_refl _

theorem ifcs_mw_le (x : Str) :
    mw (if charStarTest x then str "c_char_p" else x) ≤ mw x := by
  split_ifs with h
  · have h1 : mw (str "c_char_p") = 0 := by decide
    omega
  · exact le_refl _

theorem ifcp_mw_le (x : Str) :
    mw (if cPrefixTest x then 'c' :: '_' :: x else x) ≤ mw x := by
  split_ifs with h
  · rw [mw_cons_plain _ (by decide) (by decide) (by decide) (by decide),
      mw_cons_plain _ (by decide) (by decide) (by decide) (by decide)]
  · exact le_refl _

theorem preprocess_mw_le (s : Str) : mw (preprocess s) ≤ mw s := by
  simp only [preprocess]
  refine le_trans (subG_mVR_mw none _) (le_trans (ifcp_mw_le _)
    (le_trans (subG_mLongLong_mw none _) (le_trans (ifcs_mw_le _)
    (le_trans (subG_mUnsigned_mw none _)
    (le_trans (subG_mWidth_mw (str "64") (by decide) (by decide) (by decide)
      (by decide) (by decide) (by decide) none _)
    (le_trans (subG_mWidth_mw (str "32") (by decide) (by decide) (by decide)
      (by decide) (by decide) (by decide) none _)
    (le_trans (subG_mWidth_mw (str "16") (by decide) (by decide) (by decide)
      (by decide) (by decide) (by decide) none _)
    (le_trans (subG_mWidth_mw (str "8") (by decide) (by decide) (by decide)
      (by decide) (by decide) (by decide) none _)
    (le_trans (ifu_mw_le _)
    (le_trans (subG_mKw_mw (str "union") none _)
    (le_trans (subG_mKw_mw (str "enum") none _)
    (le_trans (subG_mKw_mw (str "struct") none _)
    (le_trans (subG_mConst2_mw none _)
    (le_trans (subG_mConst1_mw none _) (pstrip_mw_le s)))))))))))))))

theorem postprocess_mw_le (s : Str) : mw (postprocess s) ≤ mw s := by
  simp only [postprocess]
  have hvd : ∀ x : Str,
      mw (if (str "vr::").isPrefixOf x then x.drop 4 else x) ≤ mw x := by
    intro x
    split_ifs with h
    · exact mw_suffix_le (List.drop_suffix _ _)
    · exact le_refl _
  have hvn : ∀ x : Str, mw (if x = str "void" then str "None" else x) ≤ mw x := by
    intro x
    split_ifs with h
    · rw [h]
      decide
    · exact le_refl _
  have hpn : ∀ x : Str,
      mw (if x = str "POINTER(None)" then str "c_void_p" else x) ≤ mw x := by
    intro x
    split_ifs with h
    · have h1 : mw (str "c_void_p") = 0 := by decide
      omega
    · exact le_refl _
  exact le_trans (hvd _) (le_trans (subG_mBool_mw none _)
    (le_trans (hpn _) (hvn s)))

theorem restMatch_prefix {u g : Str} (h : restMatch u = some g) : g <+: u := by
  simp only [restMatch] at h
  split_ifs at h <;>
    (simp only [Option.some.injEq] at h; rw [← h]; exact List.takeWhile_prefix _)

theorem drop_succ_of_drop {s : Str} {k : Nat} {c : Char} {rest : Str}
    (h : s.drop k = c :: rest) : s.drop (k + 1) = rest := by
  have h1 : s.drop (k + 1) = (s.drop k).drop 1 := by
    rw [List.drop_drop]
  rw [h1, h]
  rfl

theorem mw_take_drop_ge (s : Str) (n : Nat) :
    mw (s.take n) + mw (s.drop n) ≤ mw s := by
  have h := mw_append_ge (s.take n) (s.drop n)
  rwa [List.take_append_drop] at h

theorem starCheckAt_decomp {s : Str} {k : Nat} {g1 g2 : Str}
    (h : starCheckAt s k = some (g1, g2)) : mw g1 + mw g2 + 1 ≤ mw s := by
  unfold starCheckAt at h
  cases hdrop : s.drop k with
  | nil => rw [hdrop] at h; exact absurd h (by simp)
  | cons c rest =>
    rw [hdrop] at h
    by_cases hws : isWs c
    · simp [hws] at h
    · simp only [hws, Bool.false_eq_true, if_false] at h
      cases hd : rest.drop (rest.takeWhile isWs).length with
      | nil => rw [hd] at h; exact absurd h (by simp)
      | cons d rest2 =>
        rw [hd] at h
        by_cases hdc : d = '*' ∨ d = '&'
        · have h5 : (d = '*' || d = '&') = true := by
            rcases hdc with rfl | rfl <;> simp
          simp only [h5, if_true] at h
          cases hrm : restMatch rest2 with
          | none => rw [hrm] at h; exact absurd h (by simp)
          | some g2x =>
            rw [hrm] at h
            simp only [Option.some.injEq, Prod.mk.injEq] at h
            obtain ⟨hg1, hg2⟩ := h
            have hpre : g2 <+: rest2 := hg2 ▸ restMatch_prefix hrm
            have hb2 : mw g2 ≤ mw rest2 := mw_prefix_le hpre
            have hsplit : s.drop (k + 1) = rest := drop_succ_of_drop hdrop
            have hrest : rest = rest.take (rest.takeWhile isWs).length
                ++ d :: rest2 := by
              rw [← hd, List.take_append_drop]
            have h1 := mw_take_drop_ge s (k + 1)
            rw [hsplit, hrest] at h1
            have h2 := mw_append_ge (rest.take (rest.takeWhile isWs).length)
              (d :: rest2)
            have h3 : 1 + mw rest2 ≤ mw (d :: rest2) := by
              rcases hdc with rfl | rfl
              · rw [mw_star_cons]
              · rw [mw_amp_cons]
            rw [← hg1]
            omega
        · have h5 : (d = '*' || d = '&') = false := by
            simp only [Bool.or_eq_false_iff, decide_eq_false_iff_not]
            exact ⟨fun hh => hdc (Or.inl hh), fun hh => hdc (Or.inr hh)⟩
          simp [h5] at h

theorem starFind_some {s : Str} {r : Str × Str} :
    ∀ {n}, starFind s n = some r → ∃ k, starCheckAt s k = some r := by
  intro n
  induction n with
  | zero => intro h; exact Option.noConfusion h
  | succ n ih =>
    intro h
    unfold starFind at h
    cases hc : starCheckAt s (n + 1) with
    | some r2 =>
      rw [hc] at h
      simp only [Option.some.injEq] at h
      exact ⟨n + 1, by rw [hc, h]⟩
    | none => rw [hc] at h; exact ih h

theorem matchStar_decomp {s g1 g2 : Str}
    (h : matchStar s = some (g1, g2)) : mw g1 + mw g2 + 1 ≤ mw s := by
  unfold matchStar at h
  rcases starFind_some h with ⟨k, hk⟩
  exact starCheckAt_decomp hk

theorem mw_ptr_cons_ge (t3 : Str) :
    1 + mw t3 ≤ mw ('p' :: 't' :: 'r' :: t3) := by
  unfold mw
  rw [countPtr_ptr]
  have h1 := countPtr_le_cons 'r' t3
  have h2 := countPtr_le_cons 't' ('r' :: t3)
  simp only [List.count_cons, beq_iff_eq]
  norm_num
  omega

theorem ptrCheckAt_decomp {s : Str} {k : Nat} {g1 g2 : Str}
    (h : ptrCheckAt s k = some (g1, g2)) : mw g1 + mw g2 + 1 ≤ mw s := by
  simp only [ptrCheckAt] at h
  split_ifs at h with hpre hpre2
  · cases hrm : restMatch (List.drop 2 (List.drop 3 (List.drop k s))) with
    | some g2x =>
      rw [hrm] at h
      simp only [Option.some.injEq, Prod.mk.injEq] at h
      obtain ⟨hg1, hg2⟩ := h
      have hpre3 : g2 <+: List.drop 2 (List.drop 3 (List.drop k s)) :=
        hg2 ▸ restMatch_prefix hrm
      rcases List.isPrefixOf_iff_prefix.mp hpre with ⟨t3, ht⟩
      have h1 := mw_take_drop_ge s k
      have h2 : mw g2 ≤ mw t3 := by
        have he : List.drop 3 (List.drop k s) = t3 := by rw [← ht]; rfl
        rw [he] at hpre3
        exact le_trans (mw_prefix_le hpre3) (mw_suffix_le (List.drop_suffix _ _))
      have h3 : 1 + mw t3 ≤ mw (s.drop k) := by
        rw [← ht]
        exact mw_ptr_cons_ge t3
      rw [← hg1]
      omega
    | none =>
      rw [hrm] at h
      cases hrm2 : restMatch (List.drop 3 (List.drop k s)) with
      | none => rw [hrm2] at h; exact absurd h (by simp)
      | some g2x =>
        rw [hrm2] at h
        simp only [Option.some.injEq, Prod.mk.injEq] at h
        obtain ⟨hg1, hg2⟩ := h
        have hpre3 : g2 <+: List.drop 3 (List.drop k s) :=
          hg2 ▸ restMatch_prefix hrm2
        rcases List.isPrefixOf_iff_prefix.mp hpre with ⟨t3, ht⟩
        have h1 := mw_take_drop_ge s k
        have h2 : mw g2 ≤ mw t3 := by
          have he : List.drop 3 (List.drop k s) = t3 := by rw [← ht]; rfl
          exact he ▸ mw_prefix_le hpre3
        have h3 : 1 + mw t3 ≤ mw (s.drop k) := by
          rw [← ht]
          exact mw_ptr_cons_ge t3
        rw [← hg1]
        omega
  · cases hrm2 : restMatch (List.drop 3 (List.drop k s)) with
    | none => rw [hrm2] at h; exact absurd h (by simp)
    | some g2x =>
      rw [hrm2] at h
      simp only [Option.some.injEq, Prod.mk.injEq] at h
      obtain ⟨hg1, hg2⟩ := h
      have hpre3 : g2 <+: List.drop 3 (List.drop k s) :=
        hg2 ▸ restMatch_prefix hrm2
      rcases List.isPrefixOf_iff_prefix.mp hpre with ⟨t3, ht⟩
      have h1 := mw_take_drop_ge s k
      have h2 : mw g2 ≤ mw t3 := by
        have he : List.drop 3 (List.drop k s) = t3 := by rw [← ht]; rfl
        exact he ▸ mw_prefix_le hpre3
      have h3 : 1 + mw t3 ≤ mw (s.drop k) := by
        rw [← ht]
        exact mw_ptr_cons_ge t3
      rw [← hg1]
      omega

theorem ptrFind_some {s : Str} {r : Str × Str} :
    ∀ {n}, ptrFind s n = some r → ∃ k, ptrCheckAt s k = some r := by
  intro n
  induction n with
  | zero => intro h; exact Option.noConfusion h
  | succ n ih =>
    intro h
    unfold ptrFind at h
    cases hc : ptrCheckAt s (n + 1) with
    | some r2 =>
      rw [hc] at h
      simp only [Option.some.injEq] at h
      exact ⟨n + 1, by rw [hc, h]⟩
    | none => rw [hc] at h; exact ih h

theorem matchPtr_decomp {s g1 g2 : Str}
    (h : matchPtr s = some (g1, g2)) : mw g1 + mw g2 + 1 ≤ mw s := by
  unfold matchPtr at h
  rcases ptrFind_some h with ⟨k, hk⟩
  exact ptrCheckAt_decomp hk

theorem arrCheckAt_decomp {s : Str} {k : Nat} {g1 ds g3 : Str}
    (h : arrCheckAt s k = some (g1, ds, g3)) :
    mw g1 + mw g3 + 3 ≤ mw s ∧ ∀ c ∈ ds, Char.isDigit c = true := by
  unfold arrCheckAt at h
  cases hdrop : s.drop k with
  | nil => rw [hdrop] at h; exact absurd h (by simp)
  | cons c rest =>
    rw [hdrop] at h
    by_cases hws : isWs c
    · simp [hws] at h
    · simp only [hws, Bool.false_eq_true, if_false] at h
      cases hd : rest.drop (rest.takeWhile isWs).length with
      | nil => rw [hd] at h; exact absurd h (by simp)
      | cons d rest2 =>
        rw [hd] at h
        by_cases hdc : d = '['
        · simp only [hdc, reduceIte] at h
          split_ifs at h with hlen
          cases hE : rest2.drop (rest2.takeWhile Char.isDigit).length with
          | nil => rw [hE] at h; exact absurd h (by simp)
          | cons e rest3 =>
            rw [hE] at h
            by_cases he : e = ']'
            · simp only [he, reduceIte] at h
              cases hrm : restMatch rest3 with
              | none => rw [hrm] at h; exact absurd h (by simp)
              | some g3x =>
                rw [hrm] at h
                simp only [Option.some.injEq, Prod.mk.injEq] at h
                obtain ⟨hg1, hds, hg3⟩ := h
                constructor
                · have hpre : g3 <+: rest3 := hg3 ▸ restMatch_prefix hrm
                  have hb3 : mw g3 ≤ mw rest3 := mw_prefix_le hpre
                  have hsplit : s.drop (k + 1) = rest := drop_succ_of_drop hdrop
                  have hrest : rest = rest.take (rest.takeWhile isWs).length
                      ++ d :: rest2 := by
                    rw [← hd, List.take_append_drop]
                  have h1 := mw_take_drop_ge s (k + 1)
                  rw [hsplit, hrest] at h1
                  have h2 := mw_append_ge
                    (rest.take (rest.takeWhile isWs).length) (d :: rest2)
                  have h3 : mw (d :: rest2) = 3 + mw rest2 := by
                    rw [hdc, mw_bracket_cons]
                  have htw : rest2.takeWhile Char.isDigit
                      = rest2.take (rest2.takeWhile Char.isDigit).length :=
                    List.prefix_iff_eq_take.mp (List.takeWhile_prefix _)
                  have h4 : rest2 = rest2.takeWhile Char.isDigit
                      ++ e :: rest3 := by
                    conv_lhs => rw [← List.take_append_drop
                      (rest2.takeWhile Char.isDigit).length rest2]
                    rw [hE, ← htw]
                  have h5 := mw_append_ge (rest2.takeWhile Char.isDigit)
                    (e :: rest3)
                  rw [← h4] at h5
                  have h6 := mw_cons_le e rest3
                  rw [← hg1]
                  omega
                · intro c2 hc2
                  rw [← hds] at hc2
                  exact List.mem_takeWhile_imp hc2
            · simp [he] at h
        · simp [hdc] at h

theorem arrFind_some {s : Str} {r : Str × Str × Str} :
    ∀ {n}, arrFind s n = some r → ∃ k, arrCheckAt s k = some r := by
  intro n
  induction n with
  | zero => intro h; exact Option.noConfusion h
  | succ n ih =>
    intro h
    unfold arrFind at h
    cases hc : arrCheckAt s (n + 1) with
    | some r2 =>
      rw [hc] at h
      simp only [Option.some.injEq] at h
      exact ⟨n + 1, by rw [hc, h]⟩
    | none => rw [hc] at h; exact ih h

theorem matchArr_decomp {s g1 ds g3 : Str}
    (h : matchArr s = some (g1, ds, g3)) :
    mw g1 + mw g3 + 3 ≤ mw s ∧ ∀ c ∈ ds, Char.isDigit c = true := by
  unfold matchArr at h
  rcases arrFind_some h with ⟨k, hk⟩
  exact arrCheckAt_decomp hk

theorem mw_digits_zero {ds : Str} (h : ∀ c ∈ ds, Char.isDigit c = true) :
    mw ds = 0 := by
  unfold mw
  have h1 : countPtr ds = 0 := countPtr_zero_no_p (fun hh => by
    have := h 'p' hh
    exact absurd this (by decide))
  have h2 : ds.count '[' = 0 := List.count_eq_zero.mpr (fun hh => by
    have := h '[' hh
    exact absurd this (by decide))
  have h3 : ds.count '*' = 0 := List.count_eq_zero.mpr (fun hh => by
    have := h '*' hh
    exact absurd this (by decide))
  have h4 : ds.count '&' = 0 := List.count_eq_zero.mpr (fun hh => by
    have := h '&' hh
    exact absurd this (by decide))
  omega

theorem arr_out_mw {t ds : Str} (hds : ∀ c ∈ ds, Char.isDigit c = true) :
    mw (t ++ ' ' :: '*' :: ' ' :: ds) ≤ mw t + 1 := by
  have h1 : mw (' ' :: '*' :: ' ' :: ds) = 1 := by
    rw [mw_cons_plain _ (by decide) (by decide) (by decide) (by decide),
      mw_star_cons,
      mw_cons_plain _ (by decide) (by decide) (by decide) (by decide),
      mw_digits_zero hds]
  have h2 := mw_append_le_safe t
    (b := ' ' :: '*' :: ' ' :: ds) (by rfl)
  omega

theorem bracket_out_mw (r : Str) : mw ('(' :: (r ++ [')'])) ≤ mw r := by
  rw [mw_cons_plain _ (by decide) (by decide) (by decide) (by decide)]
  have h1 := mw_append_le_safe r (b := [')']) (by rfl)
  have h2 : mw [')'] = 0 := by decide
  omega

theorem ptrWrap_mw_le (p g2 : Str) : mw (ptrWrap p g2) ≤ mw p + mw g2 := by
  unfold ptrWrap
  have ha : (str "POINTER(" ++ p) ++ ')' :: g2
      = str "POINTER(" ++ (p ++ ')' :: g2) := by
    rw [List.append_assoc]
  show mw ((str "POINTER(" ++ p) ++ ')' :: g2) ≤ mw p + mw g2
  rw [ha]
  unfold mw
  rw [List.count_append, List.count_append, List.count_append,
    countPtr_append_no_p _ (by decide)]
  have h1 : countPtr (p ++ ')' :: g2) ≤ countPtr p + countPtr (')' :: g2) :=
    countPtr_append_le_safe p (by rfl)
  rw [countPtr_cons_ne _ (by decide)] at h1
  have e1 : (str "POINTER(").count '[' = 0 := by decide
  have e2 : (str "POINTER(").count '*' = 0 := by decide
  have e3 : (str "POINTER(").count '&' = 0 := by decide
  rw [List.count_append, List.count_append, List.count_append,
    List.count_cons, List.count_cons, List.count_cons, e1, e2, e3]
  simp
  omega

theorem loopF_A {tt : Str → Option Str} {mtch : Str → Option (Str × Str)}
    (hdec : ∀ s g1 g2, mtch s = some (g1, g2) → mw g1 + mw g2 + 1 ≤ mw s)
    (hA : ∀ u p, tt u = some p → mw p ≤ mw u) :
    ∀ lfuel s out, loopF tt mtch lfuel s = some out → mw out ≤ mw s := by
  intro lfuel
  induction lfuel with
  | zero =>
    intro s out h
    unfold loopF at h
    cases hm : mtch s with
    | none =>
      rw [hm] at h
      simp only [Option.some.injEq] at h
      rw [← h]
    | some g => rw [hm] at h; exact Option.noConfusion h
  | succ lfuel ih =>
    intro s out h
    unfold loopF at h
    cases hm : mtch s with
    | none =>
      rw [hm] at h
      simp only [Option.some.injEq] at h
      rw [← h]
    | some g =>
      obtain ⟨g1, g2⟩ := g
      rw [hm] at h
      replace h : (match tt g1 with
          | none => none
          | some p => loopF tt mtch lfuel (ptrWrap p g2)) = some out := h
      cases hp : tt g1 with
      | none => rw [hp] at h; exact Option.noConfusion h
      | some p =>
        rw [hp] at h
        simp only [] at h
        have hd := hdec s g1 g2 hm
        have hpb := hA g1 p hp
        have hw := ptrWrap_mw_le p g2
        have hrec := ih (ptrWrap p g2) out h
        omega

theorem loopF_B {tt : Str → Option Str} {mtch : Str → Option (Str × Str)}
    {T : Nat}
    (hdec : ∀ s g1 g2, mtch s = some (g1, g2) → mw g1 + mw g2 + 1 ≤ mw s)
    (hA : ∀ u p, tt u = some p → mw p ≤ mw u)
    (hB : ∀ u, mw u < T → (tt u).isSome) :
    ∀ lfuel s, mw s ≤ lfuel → mw s ≤ T →
      ∃ out, loopF tt mtch lfuel s = some out ∧ mw out ≤ mw s := by
  intro lfuel
  induction lfuel with
  | zero =>
    intro s h0 hT
    cases hm : mtch s with
    | none => exact ⟨s, by simp [loopF, hm], le_refl _⟩
    | some g =>
      obtain ⟨g1, g2⟩ := g
      have hd := hdec s g1 g2 hm
      omega
  | succ lfuel ih =>
    intro s h0 hT
    cases hm : mtch s with
    | none => exact ⟨s, by simp [loopF, hm], le_refl _⟩
    | some g =>
      obtain ⟨g1, g2⟩ := g
      have hd := hdec s g1 g2 hm
      have hg1T : mw g1 < T := by omega
      obtain ⟨p, hp⟩ := Option.isSome_iff_exists.mp (hB g1 hg1T)
      have hpb := hA g1 p hp
      have hw := ptrWrap_mw_le p g2
      obtain ⟨out, ho, hob⟩ := ih (ptrWrap p g2) (by omega) (by omega)
      refine ⟨out, ?_, by omega⟩
      simp only [loopF, hm, hp, ho]

theorem ttCore_meas : ∀ fuel,
    (∀ b s r, ttCore fuel b s = some r → mw r ≤ mw s)
    ∧ (∀ b s, mw s < fuel → (ttCore fuel b s).isSome) := by
  intro fuel
  induction fuel with
  | zero =>
    exact ⟨fun b s r h => Option.noConfusion h,
      fun b s h => absurd h (by omega)⟩
  | succ fuel ih =>
    obtain ⟨ihA, ihB⟩ := ih
    have hAstar : ∀ u p, ttCore fuel false u = some p → mw p ≤ mw u :=
      fun u p h => ihA false u p h
    have hBstar : ∀ u, mw u < fuel → (ttCore fuel false u).isSome :=
      fun u h => ihB false u h
    constructor
    · intro b s r h
      simp only [ttCore] at h
      cases h2 : loopF (ttCore fuel false) matchStar (fuel + 1)
          (preprocess s) with
      | none => rw [h2] at h; exact Option.noConfusion h
      | some s2 =>
        rw [h2] at h
        simp only [] at h
        cases h3 : loopF (ttCore fuel false) matchPtr (fuel + 1) s2 with
        | none => rw [h3] at h; exact Option.noConfusion h
        | some s3 =>
          rw [h3] at h
          simp only [] at h
          have hb2 : mw s2 ≤ mw (preprocess s) :=
            loopF_A (fun s g1 g2 hh => matchStar_decomp hh) hAstar
              (fuel + 1) (preprocess s) s2 h2
          have hb3 : mw s3 ≤ mw s2 :=
            loopF_A (fun s g1 g2 hh => matchPtr_decomp hh) hAstar
              (fuel + 1) s2 s3 h3
          have hb4 : mw (postprocess s3) ≤ mw s3 := postprocess_mw_le s3
          have hb1 : mw (preprocess s) ≤ mw s := preprocess_mw_le s
          cases h5 : matchArr (postprocess s3) with
          | none =>
            rw [h5] at h
            simp only [Option.some.injEq] at h
            rw [← h]
            omega
          | some g =>
            obtain ⟨g1, g2x⟩ := g
            obtain ⟨ds, g3⟩ := g2x
            rw [h5] at h
            simp only [] at h
            cases h6 : ttCore fuel true (g1 ++ g3) with
            | none => rw [h6] at h; exact Option.noConfusion h
            | some t =>
              rw [h6] at h
              simp only [Option.some.injEq] at h
              obtain ⟨hdec5, hds5⟩ := matchArr_decomp h5
              have ht := ihA true (g1 ++ g3) t h6
              have hle2 := mw_append_le2 g1 g3
              have hout := arr_out_mw (t := t) hds5
              have hmin : min g1.length 2 ≤ 2 := by omega
              rw [← h]
              cases b with
              | true =>
                simp only [if_true]
                have hbr := bracket_out_mw (t ++ ' ' :: '*' :: ' ' :: ds)
                omega
              | false =>
                simp only [Bool.false_eq_true, if_false]
                omega
    · intro b s hlt
      have h1 : mw (preprocess s) ≤ fuel :=
        le_trans (preprocess_mw_le s) (by omega)
      obtain ⟨s2, h2, b2⟩ := loopF_B
        (fun s g1 g2 hh => matchStar_decomp hh) hAstar hBstar
        (fuel + 1) (preprocess s) (by omega) (by omega)
      obtain ⟨s3, h3, b3⟩ := loopF_B
        (fun s g1 g2 hh => matchPtr_decomp hh) hAstar hBstar
        (fuel + 1) s2 (by omega) (by omega)
      simp only [ttCore, h2, h3]
      cases h5 : matchArr (postprocess s3) with
      | none => simp
      | some g =>
        obtain ⟨g1, g2x⟩ := g
        obtain ⟨ds, g3⟩ := g2x
        obtain ⟨hdec5, _⟩ := matchArr_decomp h5
        have hb4 : mw (postprocess s3) ≤ mw s3 := postprocess_mw_le s3
        have hle2 := mw_append_le2 g1 g3
        have hmin : min g1.length 2 ≤ 2 := by omega
        have h6 : mw (g1 ++ g3) < fuel := by omega
        obtain ⟨t, ht⟩ := Option.isSome_iff_exists.mp (ihB true (g1 ++ g3) h6)
        simp only [ht]
        simp

/-- C1: on every input the fuel `mw s + 1` used by `translate_type`
suffices — the fuel-indexed translator never runs out, so the two rewrite
loops reach their fixpoints and the recursive pointee/array calls are
well-founded; `translate_type` always returns the translated string and the
`getD` fallback is never exercised. -/
theorem c1_translate_type_total (s : Str) :
    ∃ r, ttCore (mw s + 1) false s = some r ∧ translate_type s = r := by
  have h := (ttCore_meas (mw s + 1)).2 false s (by omega)
  obtain ⟨r, hr⟩ := Option.isSome_iff_exists.mp h
  refine ⟨r, hr, ?_⟩
  unfold translate_type
  rw [hr]
  rfl
